import Mathlib

/-!
Verification development for the caching-proxy repository.

The Go sources are shallowly embedded below:
* string and header utilities mirror net/textproto and net/http header
  semantics as used by the repository (canonical MIME keys, Get/Set/Del/Add);
* internal/cache/cache.go: BuildCacheKey, ShardPath, singleJoiningSlash,
  CloneHeaders;
* internal/cache/diskcache.go: DiskCache Get/Set/Delete/Clear over an explicit
  file-system map (file contents are modelled as parsed JSON values, raw
  unparseable text, or unreadable files);
* the proxy package request handler (cache eligibility, hit path, miss path
  with response capture, hop-by-hop filtering, bad-gateway fallback);
* a small interleaving semantics of concurrent DiskCache.Set calls
  (per-key mutex, temp-file write, atomic rename).
-/

namespace CachingProxy

/-! ## Characters and strings -/

/-- Model of net/textproto validHeaderFieldByte: RFC 7230 token characters,
identified here by code point (digits, letters, and the symbols
! # $ % and ampersand, apostrophe, * + - . ^ _ backquote | ~). -/
def isTokenChar (c : Char) : Bool :=
  let n := c.toNat
  (48 ≤ n && n ≤ 57) || (65 ≤ n && n ≤ 90) || (97 ≤ n && n ≤ 122) ||
  n == 33 || (35 ≤ n && n ≤ 39) || n == 42 || n == 43 || n == 45 ||
  n == 46 || n == 94 || n == 95 || n == 96 || n == 124 || n == 126

/-- Case walk of net/textproto canonicalMIMEHeaderKey: uppercase the first
letter and every letter following a dash, lowercase the rest. -/
def canonAux : Bool → List Char → List Char
  | _, [] => []
  | up, c :: cs =>
    let c' := if up then c.toUpper else c.toLower
    c' :: canonAux (c' == '-') cs

/-- Model of textproto.CanonicalMIMEHeaderKey: keys containing a non-token
character are returned unchanged, otherwise canonical-cased. -/
def canonKey (s : String) : String :=
  if s.data.all isTokenChar then String.mk (canonAux true s.data) else s

/-- Model of unicode.IsSpace restricted to the ASCII space class plus NEL and
NBSP (the characters that can occur in header values in practice). -/
def isSpaceChar (c : Char) : Bool :=
  let n := c.toNat
  n == 32 || (9 ≤ n && n ≤ 13) || n == 133 || n == 160

/-- Model of strings.TrimSpace. -/
def trimSpace (s : String) : String :=
  String.mk (((s.data.dropWhile isSpaceChar).reverse.dropWhile isSpaceChar).reverse)

/-- Comma splitter on characters: keeps empty fields, never returns []. -/
def splitCommaChars : List Char → List (List Char)
  | [] => [[]]
  | c :: cs =>
    if c == ',' then [] :: splitCommaChars cs
    else
      match splitCommaChars cs with
      | [] => [[c]]
      | g :: gs => (c :: g) :: gs

/-- Model of strings.Split(s, ",") (keeps empty fields, never returns []). -/
def splitComma (s : String) : List String :=
  (splitCommaChars s.data).map String.mk

/-- ASCII lower-casing of one character (Go strings.EqualFold restricted to
ASCII, which covers every token the repository compares). -/
def asciiLower (c : Char) : Char :=
  let n := c.toNat
  if 65 ≤ n && n ≤ 90 then Char.ofNat (n + 32) else c

/-- Model of strings.EqualFold on ASCII data. -/
def equalFold (a b : String) : Bool :=
  a.data.map asciiLower == b.data.map asciiLower

/-- containsToken from the proxy package: split the value on commas, trim each
part, compare case-insensitively with the token. -/
def containsToken (v token : String) : Bool :=
  (splitComma v).any (fun part => equalFold (trimSpace part) token)

/-! ## Generic association lists (string-keyed maps) -/

/-- First-match lookup in a string-keyed association list. -/
def alookup {α : Type} (l : List (String × α)) (k : String) : Option α :=
  (l.find? (fun p => p.1 == k)).map (·.2)

/-- Replace-or-append write: Go map assignment m[k] = v. -/
def aset {α : Type} (l : List (String × α)) (k : String) (v : α) :
    List (String × α) :=
  l.filter (fun p => p.1 != k) ++ [(k, v)]

/-- Key removal: Go delete(m, k). -/
def aremove {α : Type} (l : List (String × α)) (k : String) :
    List (String × α) :=
  l.filter (fun p => p.1 != k)

/-! ## HTTP headers (net/http Header as used by the repository) -/

/-- http.Header: a map from header name to list of values.  Keys written
through Get/Set/Del/Add are canonicalized; keys written by direct map
assignment (CloneHeaders, JSON unmarshalling) are stored verbatim. -/
abbrev Headers := List (String × List String)

/-- Raw map lookup (no canonicalization), h[k]. -/
def hFindRaw (h : Headers) (k : String) : Option (List String) :=
  alookup h k

/-- Value list of a name at the raw map level ([] when absent). -/
def hVals (h : Headers) (k : String) : List String :=
  (hFindRaw h k).getD []

/-- Model of http.Header.Get: canonicalize the argument, return the first
value, or the empty string when the key is absent or has no values. -/
def hGet (h : Headers) (k : String) : String :=
  match hFindRaw h (canonKey k) with
  | some (v :: _) => v
  | _ => ""

/-- Model of http.Header.Set: canonicalize the key and replace its values. -/
def hSet (h : Headers) (k v : String) : Headers :=
  aset h (canonKey k) [v]

/-- Model of http.Header.Del: canonicalize the key and delete it. -/
def hDel (h : Headers) (k : String) : Headers :=
  aremove h (canonKey k)

/-- Model of http.Header.Add: canonicalize the key and append the value to
its value list, creating the entry when absent. -/
def hAdd (h : Headers) (k v : String) : Headers :=
  let k' := canonKey k
  if (h.find? (fun p => p.1 == k')).isSome then
    h.map (fun p => if p.1 == k' then (p.1, p.2 ++ [v]) else p)
  else
    h ++ [(k', [v])]

/-- copyHeaders from the proxy package: dst.Add(k, v) for every value of
every key of src. -/
def copyHeaders (dst src : Headers) : Headers :=
  src.foldl (fun d p => p.2.foldl (fun d' v => hAdd d' p.1 v) d) dst

/-- Insertion step of an ascending insertion sort on strings. -/
def insertStr (x : String) : List String → List String
  | [] => [x]
  | y :: ys => if x ≤ y then x :: y :: ys else y :: insertStr x ys

/-- Ascending string sort (model of sort.Strings; byte order and code-point
order agree on valid UTF-8). -/
def sortStrings (l : List String) : List String :=
  l.foldr insertStr []

/-- CloneHeaders from internal/cache/cache.go: deep copy with each value list
sorted for deterministic storage; keys are kept verbatim (direct map writes,
no canonicalization). -/
def cloneHeaders (h : Headers) : Headers :=
  h.map (fun p => (p.1, sortStrings p.2))

/-! ## Hop-by-hop header filtering (proxy package) -/

/-- hopHeaders from the proxy package. -/
def hopHeaders : List String :=
  ["Connection", "Proxy-Connection", "Keep-Alive", "Proxy-Authenticate",
   "Proxy-Authorization", "TE", "Trailer", "Transfer-Encoding", "Upgrade"]

/-- Names nominated for deletion by the Connection header value: split on
commas, trim, drop empties; empty Connection value nominates nothing. -/
def connNominated (h : Headers) : List String :=
  let c := hGet h "Connection"
  if c == "" then []
  else ((splitComma c).map trimSpace).filter (fun n => n != "")

/-- filterHopByHop from the proxy package: delete every Connection-nominated
name, then every fixed hop-by-hop header. -/
def filterHopByHop (h : Headers) : Headers :=
  let h1 := (connNominated h).foldl hDel h
  hopHeaders.foldl hDel h1

/-- Canonical names removed by one filterHopByHop pass on h: the fixed list
plus the Connection-nominated tokens, all canonicalized the way Header.Del
canonicalizes its argument. -/
def removedNames (h : Headers) : List String :=
  (connNominated h).map canonKey ++ hopHeaders.map canonKey

/-! ## Base64 (encoding/base64 StdEncoding, as used by encoding/json for
byte slices) -/

/-- Character of the standard base64 alphabet for a sextet. -/
def b64chr (n : Nat) : Char :=
  if n < 26 then Char.ofNat (65 + n)
  else if n < 52 then Char.ofNat (97 + (n - 26))
  else if n < 62 then Char.ofNat (48 + (n - 52))
  else if n == 62 then Char.ofNat 43
  else Char.ofNat 47

/-- Sextet of a standard base64 alphabet character, none for any other
character. -/
def b64idx (c : Char) : Option Nat :=
  let n := c.toNat
  if 65 ≤ n && n ≤ 90 then some (n - 65)
  else if 97 ≤ n && n ≤ 122 then some (n - 97 + 26)
  else if 48 ≤ n && n ≤ 57 then some (n - 48 + 52)
  else if n == 43 then some 62
  else if n == 47 then some 63
  else none

/-- Standard base64 encoding with padding, three bytes to four characters. -/
def b64encodeChars : List Nat → List Char
  | a :: b :: c :: rest =>
    let n := a * 65536 + b * 256 + c
    b64chr (n / 262144) :: b64chr (n / 4096 % 64) :: b64chr (n / 64 % 64) ::
      b64chr (n % 64) :: b64encodeChars rest
  | [a, b] =>
    let n := a * 65536 + b * 256
    [b64chr (n / 262144), b64chr (n / 4096 % 64), b64chr (n / 64 % 64), '=']
  | [a] =>
    let n := a * 65536
    [b64chr (n / 262144), b64chr (n / 4096 % 64), '=', '=']
  | [] => []

/-- Standard base64 decoding with padding; fails on characters outside the
alphabet, on misplaced padding, and on lengths that are not a multiple of
four (mirroring base64.StdEncoding.DecodeString). -/
def b64decodeChars : List Char → Option (List Nat)
  | [] => some []
  | c1 :: c2 :: c3 :: c4 :: rest => do
    let a ← b64idx c1
    let b ← b64idx c2
    if c3 == '=' then
      if c4 == '=' && rest.isEmpty then some [a * 4 + b / 16] else none
    else do
      let c ← b64idx c3
      if c4 == '=' then
        if rest.isEmpty then some [a * 4 + b / 16, b % 16 * 16 + c / 4]
        else none
      else do
        let d ← b64idx c4
        let tail ← b64decodeChars rest
        some ((a * 4 + b / 16) :: (b % 16 * 16 + c / 4) :: (c % 4 * 64 + d) :: tail)
  | _ => none

/-- Base64 encoding to a string. -/
def b64encode (bs : List Nat) : String :=
  String.mk (b64encodeChars bs)

/-- Base64 decoding of a string. -/
def b64decode (s : String) : Option (List Nat) :=
  b64decodeChars s.data

/-! ## JSON values and Entry serialization (encoding/json for cache.Entry) -/

/-- Parsed JSON values.  Numbers are modelled as integers: the repository
only ever writes the integral Status field, and unmarshalling a fractional
number into an int errors in Go just as a non-num value errors here. -/
inductive Json where
  | null
  | jbool (b : Bool)
  | num (n : Int)
  | str (s : String)
  | arr (elems : List Json)
  | obj (fields : List (String × Json))

/-- cache.Entry: status code, header map, body bytes. -/
structure Entry where
  status : Int
  header : Headers
  body : List Nat
deriving DecidableEq, Repr

/-- Insertion step of an ascending insertion sort of header pairs by key. -/
def insertPair (x : String × List String) :
    Headers → Headers
  | [] => [x]
  | y :: ys => if x.1 ≤ y.1 then x :: y :: ys else y :: insertPair x ys

/-- Key-ascending sort of a header list (encoding/json marshals Go maps with
sorted keys). -/
def sortHdr (h : Headers) : Headers :=
  h.foldr insertPair []

/-- Model of json.Marshal for cache.Entry: an object with the struct fields
in declaration order; the header map with sorted keys and each value list as
an array of strings; the body as a base64 string. -/
def entryToJson (e : Entry) : Json :=
  .obj [("Status", .num e.status),
        ("Header", .obj ((sortHdr e.header).map
          (fun p => (p.1, Json.arr (p.2.map Json.str))))),
        ("Body", .str (b64encode e.body))]

/-- Field lookup in a JSON object; Go's json keeps the last duplicate. -/
def jsonField (fields : List (String × Json)) (name : String) : Option Json :=
  (fields.reverse.find? (fun p => p.1 == name)).map (·.2)

/-- Unmarshal the Status field: a missing field or null leaves the zero
value, a number is taken as is, anything else errors. -/
def decodeStatus : Option Json → Option Int
  | none => some 0
  | some .null => some 0
  | some (.num n) => some n
  | _ => none

/-- Unmarshal one header value list: null gives the nil slice, an array must
contain only strings, anything else errors. -/
def decodeVals : Json → Option (List String)
  | .null => some []
  | .arr xs => xs.mapM (fun j => match j with | .str s => some s | _ => none)
  | _ => none

/-- Unmarshal the Header field into a map from names (kept verbatim) to
value lists. -/
def decodeHeader : Option Json → Option Headers
  | none => some []
  | some .null => some []
  | some (.obj fs) =>
    fs.mapM (fun p => (decodeVals p.2).map (fun vs => (p.1, vs)))
  | _ => none

/-- Unmarshal the Body field: base64 string or null. -/
def decodeBody : Option Json → Option (List Nat)
  | none => some []
  | some .null => some []
  | some (.str s) => b64decode s
  | _ => none

/-- Model of json.Unmarshal into cache.Entry: null leaves the zero value
untouched; an object is decoded field-wise with unknown fields ignored;
every other JSON value is a type error. -/
def entryFromJson : Json → Option Entry
  | .null => some ⟨0, [], []⟩
  | .obj fs => do
    let st ← decodeStatus (jsonField fs "Status")
    let hd ← decodeHeader (jsonField fs "Header")
    let bd ← decodeBody (jsonField fs "Body")
    some ⟨st, hd, bd⟩
  | _ => none

/-- Well-formedness of an entry produced by the running system: header keys
are distinct (http.Header is a map) and body bytes are bytes. -/
def wfEntry (e : Entry) : Prop :=
  (e.header.map Prod.fst).Nodup ∧ ∀ b ∈ e.body, b < 256

/-! ## File system and DiskCache (internal/cache/diskcache.go) -/

/-- Contents of one file as DiskCache.Get observes them: JSON that parsed,
text that does not parse as JSON, or a file whose read fails. -/
inductive FsData where
  | jsonFile (j : Json)
  | rawFile (s : String)
  | unreadableFile

/-- The file system: a map from path to file contents. -/
abbrev Fs := List (String × FsData)

/-- Read a file. -/
def fsLookup (fs : Fs) (p : String) : Option FsData :=
  alookup fs p

/-- Delete a file (os.Remove; absence is a no-op at the map level). -/
def fsRemove (fs : Fs) (p : String) : Fs :=
  aremove fs p

/-- Create or truncate-and-write a file (os.WriteFile). -/
def fsWrite (fs : Fs) (p : String) (d : FsData) : Fs :=
  aset fs p d

/-- Atomic rename (os.Rename): move the contents of src over dst.  A missing
source leaves the map unchanged (in Go this errors; DiskCache.Set never hits
this case because it just wrote the source). -/
def fsRename (fs : Fs) (src dst : String) : Fs :=
  match fsLookup fs src with
  | some d => fsWrite (fsRemove fs src) dst d
  | none => fs

/-- ShardPath from internal/cache/cache.go: first two key characters, next
two key characters, then the full key, joined under the cache directory.
filepath.Join is modelled as slash-joining of its non-empty parts (its path
cleaning is the identity on the clean inputs the repository produces). -/
def shardPath (cacheDir key : String) : String :=
  let parts :=
    (if key.length ≥ 2 then [String.mk (key.data.take 2)] else []) ++
    (if key.length ≥ 4 then [String.mk ((key.data.drop 2).take 2)] else [])
  String.intercalate "/" ((cacheDir :: (parts ++ [key])).filter (fun s => s != ""))

/-- DiskCache.filePathForKey: the shard path with the storage extension. -/
def filePathForKey (dir key : String) : String :=
  shardPath dir key ++ ".json"

/-- Result of DiskCache.Get: the entry pointer, the ok flag, and whether an
error was returned. -/
structure GetRes where
  entry : Option Entry
  ok : Bool
  errFlag : Bool
deriving DecidableEq, Repr

/-- DiskCache.Get: open the key's file (absence is not an error), read it
(read failures error), unmarshal it (parse and type failures error). -/
def dcGet (fs : Fs) (dir key : String) : GetRes :=
  match fsLookup fs (filePathForKey dir key) with
  | none => ⟨none, false, false⟩
  | some .unreadableFile => ⟨none, false, true⟩
  | some (.rawFile _) => ⟨none, false, true⟩
  | some (.jsonFile j) =>
    match entryFromJson j with
    | none => ⟨none, false, true⟩
    | some e => ⟨some e, true, false⟩

/-- DiskCache.Set: marshal the entry, write it to the temporary file next to
the final path, then atomically rename the temporary file over the final
path (the per-key lock orders concurrent writers; see the interleaving model
below). -/
def dcSet (fs : Fs) (dir key : String) (e : Entry) : Fs :=
  let path := filePathForKey dir key
  let tmp := path ++ ".tmp"
  let fs1 := fsWrite fs tmp (.jsonFile (entryToJson e))
  fsRename fs1 tmp path

/-- DiskCache.Delete: remove the key's file; absence is not an error. -/
def dcDelete (fs : Fs) (dir key : String) : Fs :=
  fsRemove fs (filePathForKey dir key)

/-- Model of filepath.Ext: the suffix starting at the final dot of the final
path element, or the empty string when that element has no dot. -/
def extOf (p : String) : String :=
  let revBase := p.data.reverse.takeWhile (fun c => c != '/')
  let pre := revBase.takeWhile (fun c => c != '.')
  if pre.length == revBase.length then ""
  else String.mk ((pre ++ ['.']).reverse)

/-- Prefix test on character lists (model of strings.HasPrefix). -/
def listIsPre : List Char → List Char → Bool
  | [], _ => true
  | _ :: _, [] => false
  | a :: as, b :: bs => a == b && listIsPre as bs

/-- A path filepath.Walk(dir) visits and DiskCache.Clear removes: strictly
under the cache directory and carrying the storage extension. -/
def isEntryFile (dir p : String) : Bool :=
  (listIsPre (dir ++ "/").data p.data) && (extOf p == ".json")

/-- DiskCache.Clear: walk the cache directory, remove every file with the
storage extension, count the removals. -/
def dcClear (fs : Fs) (dir : String) : Nat × Fs :=
  ((fs.filter (fun q => isEntryFile dir q.1)).length,
   fs.filter (fun q => !(isEntryFile dir q.1)))

/-! ## URLs and the cache key (internal/cache/cache.go) -/

/-- The url.URL fields the repository uses. -/
structure UrlT where
  scheme : String
  host : String
  path : String
  rawQuery : String
deriving DecidableEq, Repr

/-- Model of url.URL.String for scheme-and-host URLs: the question mark is
emitted only for a non-empty query (escaping is the identity on the data the
repository handles). -/
def urlString (u : UrlT) : String :=
  u.scheme ++ "://" ++ u.host ++ u.path ++
    (if u.rawQuery == "" then "" else "?" ++ u.rawQuery)

/-- Split a character list at the first scheme separator. -/
def splitScheme : List Char → Option (List Char × List Char)
  | [] => none
  | ':' :: '/' :: '/' :: rest => some ([], rest)
  | c :: rest => (splitScheme rest).map (fun p => (c :: p.1, p.2))

/-- Valid scheme: a letter followed by letters, digits, plus, minus, dot
(url.Parse). -/
def validScheme (cs : List Char) : Bool :=
  match cs with
  | [] => false
  | c :: rest =>
    c.isAlpha && rest.all (fun d => d.isAlphanum || d == '+' || d == '-' || d == '.')

/-- Model of url.Parse restricted to the absolute scheme://host[/path][?query]
URLs the proxy is configured with; Run rejects unparseable origins at
startup, so the handler only ever sees parseable ones. -/
def parseURL (s : String) : Option UrlT :=
  match splitScheme s.data with
  | none => none
  | some (sch, rest) =>
    if validScheme sch then
      let host := rest.takeWhile (fun c => c != '/' && c != '?')
      let after := rest.drop host.length
      let path := after.takeWhile (fun c => c != '?')
      let query := (after.drop path.length).drop 1
      some ⟨String.mk sch, String.mk host, String.mk path, String.mk query⟩
    else none

/-- singleJoiningSlash from internal/cache/cache.go. -/
def singleJoiningSlash (a b : String) : String :=
  let aslash := a.endsWith "/"
  let bslash := b.startsWith "/"
  if aslash && bslash then a ++ b.drop 1
  else if !aslash && !bslash then a ++ "/" ++ b
  else a ++ b

/-! ## SHA-256 (crypto/sha256), over naturals reduced mod 2^32 -/

/-- Reduce to a 32-bit word. -/
def m32 (x : Nat) : Nat := x % 4294967296

/-- Right rotation of a 32-bit word. -/
def rotr32 (x n : Nat) : Nat :=
  m32 (x / 2 ^ n + x % 2 ^ n * 2 ^ (32 - n))

/-- Bitwise complement of a 32-bit word. -/
def not32 (x : Nat) : Nat := 4294967295 ^^^ x

/-- SHA-256 round constants. -/
def shaK : List Nat :=
  [1116352408, 1899447441, 3049323471, 3921009573,
   961987163, 1508970993, 2453635748, 2870763221,
   3624381080, 310598401, 607225278, 1426881987,
   1925078388, 2162078206, 2614888103, 3248222580,
   3835390401, 4022224774, 264347078, 604807628,
   770255983, 1249150122, 1555081692, 1996064986,
   2554220882, 2821834349, 2952996808, 3210313671,
   3336571891, 3584528711, 113926993, 338241895,
   666307205, 773529912, 1294757372, 1396182291,
   1695183700, 1986661051, 2177026350, 2456956037,
   2730485921, 2820302411, 3259730800, 3345764771,
   3516065817, 3600352804, 4094571909, 275423344,
   430227734, 506948616, 659060556, 883997877,
   958139571, 1322822218, 1537002063, 1747873779,
   1955562222, 2024104815, 2227730452, 2361852424,
   2428436474, 2756734187, 3204031479, 3329325298]

/-- UTF-8 bytes of one character. -/
def utf8Char (c : Char) : List Nat :=
  let n := c.toNat
  if n < 128 then [n]
  else if n < 2048 then [192 + n / 64, 128 + n % 64]
  else if n < 65536 then [224 + n / 4096, 128 + n / 64 % 64, 128 + n % 64]
  else [240 + n / 262144, 128 + n / 4096 % 64, 128 + n / 64 % 64, 128 + n % 64]

/-- UTF-8 bytes of a string (Go strings are their UTF-8 bytes). -/
def utf8Bytes (s : String) : List Nat :=
  s.data.foldr (fun c acc => utf8Char c ++ acc) []

/-- Big-endian bytes of a 64-bit length. -/
def be64 (n : Nat) : List Nat :=
  [n / 2 ^ 56 % 256, n / 2 ^ 48 % 256, n / 2 ^ 40 % 256, n / 2 ^ 32 % 256,
   n / 2 ^ 24 % 256, n / 2 ^ 16 % 256, n / 2 ^ 8 % 256, n % 256]

/-- SHA-256 padding: 0x80, zeros to 56 mod 64, the bit length big-endian. -/
def shaPad (msg : List Nat) : List Nat :=
  let len := msg.length
  let zeros := (119 - len % 64) % 64
  msg ++ [128] ++ List.replicate zeros 0 ++ be64 (len * 8)

/-- Big-endian 32-bit words of a byte list. -/
def bytesToWords : List Nat → List Nat
  | b0 :: b1 :: b2 :: b3 :: rest =>
    (b0 * 16777216 + b1 * 65536 + b2 * 256 + b3) :: bytesToWords rest
  | _ => []

/-- Split a word list into 16-word blocks. -/
def toBlocks (ws : List Nat) : List (List Nat) :=
  if h : ws.length < 16 then []
  else
    have : ws.length - 16 < ws.length := by omega
    ws.take 16 :: toBlocks (ws.drop 16)
termination_by ws.length
decreasing_by simpa using this

/-- Message schedule extension: grow the 16 block words to 64. -/
def shaExtend (ws : List Nat) (i : Nat) : List Nat :=
  match i with
  | 0 => ws
  | i' + 1 =>
    let ws := shaExtend ws i'
    let t := 16 + i'
    let w15 := ws.getD (t - 15) 0
    let w2 := ws.getD (t - 2) 0
    let s0 := rotr32 w15 7 ^^^ rotr32 w15 18 ^^^ w15 / 2 ^ 3
    let s1 := rotr32 w2 17 ^^^ rotr32 w2 19 ^^^ w2 / 2 ^ 10
    ws ++ [m32 (ws.getD (t - 16) 0 + s0 + ws.getD (t - 7) 0 + s1)]

/-- One compression round. -/
def shaRound (st : List Nat) (kw : Nat × Nat) : List Nat :=
  match st with
  | [a, b, c, d, e, f, g, h] =>
    let s1 := rotr32 e 6 ^^^ rotr32 e 11 ^^^ rotr32 e 25
    let ch := e &&& f ^^^ (not32 e &&& g)
    let t1 := m32 (h + s1 + ch + kw.1 + kw.2)
    let s0 := rotr32 a 2 ^^^ rotr32 a 13 ^^^ rotr32 a 22
    let mj := a &&& b ^^^ (a &&& c) ^^^ (b &&& c)
    let t2 := m32 (s0 + mj)
    [m32 (t1 + t2), a, b, c, m32 (d + t1), e, f, g]
  | st => st

/-- Compress one block into the hash state. -/
def shaBlock (st block : List Nat) : List Nat :=
  let ws := shaExtend block 48
  let st' := (shaK.zip ws).foldl shaRound st
  (st.zip st').map (fun p => m32 (p.1 + p.2))

/-- Lower-case hex digit. -/
def hexDigit (n : Nat) : Char :=
  if n < 10 then Char.ofNat (48 + n) else Char.ofNat (97 + (n - 10))

/-- Eight lower-case hex digits of a 32-bit word. -/
def hexWord (w : Nat) : List Char :=
  [hexDigit (w / 2 ^ 28 % 16), hexDigit (w / 2 ^ 24 % 16),
   hexDigit (w / 2 ^ 20 % 16), hexDigit (w / 2 ^ 16 % 16),
   hexDigit (w / 2 ^ 12 % 16), hexDigit (w / 2 ^ 8 % 16),
   hexDigit (w / 2 ^ 4 % 16), hexDigit (w % 16)]

/-- SHA-256 of a string, hex-encoded (sha256.Sum256 plus hex.EncodeToString). -/
def sha256hex (s : String) : String :=
  let init := [1779033703, 3144134277, 1013904242, 2773480762,
               1359893119, 2600822924, 528734635, 1541459225]
  let blocks := toBlocks (bytesToWords (shaPad (utf8Bytes s)))
  let final := blocks.foldl shaBlock init
  String.mk (final.foldr (fun w acc => hexWord w ++ acc) [])

/-! ## Requests, responses and the proxy handler (proxy package) -/

/-- The http.Request fields the repository reads. -/
structure Request where
  method : String
  path : String
  rawQuery : String
  header : Headers
  body : List Nat
deriving DecidableEq, Repr

/-- The http.Response fields the repository reads and writes. -/
structure Response where
  status : Int
  header : Headers
  body : List Nat
deriving DecidableEq, Repr

/-- BuildCacheKey with the origin base already parsed: join the base path
with the request path, keep the query verbatim, hash the newline-joined
method, full URL and Accept header value. -/
def buildCacheKey (base : UrlT) (r : Request) : String :=
  let u : UrlT := { base with path := singleJoiningSlash base.path r.path,
                              rawQuery := r.rawQuery }
  let accept := hGet r.header "Accept"
  sha256hex (String.intercalate "\n" [r.method, urlString u, accept])

/-- cache.BuildCacheKey as called by the handler: parse the origin base,
then derive the key; fails only when the base does not parse. -/
def buildCacheKeyOpt (originBase : String) (r : Request) : Option String :=
  (parseURL originBase).map (fun base => buildCacheKey base r)

/-- reqNoStore from the proxy package. -/
def reqNoStore (r : Request) : Bool :=
  containsToken (hGet r.header "Cache-Control") "no-store"

/-- The handler's cacheEligible test: GET method, empty Authorization value,
no no-store token in the request's Cache-Control value. -/
def cacheEligibleB (r : Request) : Bool :=
  r.method == "GET" && hGet r.header "Authorization" == "" && !reqNoStore r

/-- Director transform of the reverse proxy as the origin observes it:
hop-by-hop request headers are removed (the Host substitution has no
observable effect in this model). -/
def dirRequest (r : Request) : Request :=
  { r with header := filterHopByHop r.header }

/-- Response written by the ErrorHandler via http.Error on a failed origin
round trip. -/
def badGatewayResp : Response :=
  { status := 502,
    header := hSet (hSet [] "Content-Type" "text/plain; charset=utf-8")
                   "X-Content-Type-Options" "nosniff",
    body := utf8Bytes "Bad Gateway\n" }

/-- Observable outcome of one handled request: the response written to the
client, the file system afterwards, and the cache/origin traffic counts. -/
structure HResult where
  resp : Response
  fs : Fs
  cacheGets : Nat
  cacheSets : Nat
  originCalls : Nat

/-- Plain forwarding through the base reverse proxy: director-filtered
request out, hop-by-hop-filtered response back, bad gateway on failure. -/
def baseForward (fs : Fs) (origin : Request → Option Response) (r : Request) :
    HResult :=
  match origin (dirRequest r) with
  | none => ⟨badGatewayResp, fs, 0, 0, 1⟩
  | some res => ⟨{ res with header := filterHopByHop res.header }, fs, 0, 0, 1⟩

/-- The mux handler for every non-healthz path, following proxy.Run: decide
eligibility; on an eligible request with a configured cache build the key
(falling back to plain forwarding when the origin base does not parse),
serve a stored entry as a HIT, or forward, capture and store as a MISS
unless the response is no-store; otherwise forward through the base proxy.
The response-capture order mirrors rp.ModifyResponse: filter hop-by-hop
headers, set X-Cache MISS, test the (already filtered) Cache-Control for
no-store, buffer the body, set Content-Length, clone headers into the
entry, store, relay. -/
def handle (originBase : String) (cacheOn : Bool) (dir : String) (fs : Fs)
    (origin : Request → Option Response) (r : Request) : HResult :=
  if cacheOn && cacheEligibleB r then
    match buildCacheKeyOpt originBase r with
    | some key =>
      match (dcGet fs dir key).entry with
      | some ent =>
        { resp := { status := ent.status,
                    header := filterHopByHop
                      (hSet (copyHeaders [] ent.header) "X-Cache" "HIT"),
                    body := ent.body },
          fs := fs, cacheGets := 1, cacheSets := 0, originCalls := 0 }
      | none =>
        match origin (dirRequest r) with
        | none => ⟨badGatewayResp, fs, 1, 0, 1⟩
        | some res =>
          let h1 := hSet (filterHopByHop res.header) "X-Cache" "MISS"
          if containsToken (hGet h1 "Cache-Control") "no-store" then
            ⟨{ res with header := h1 }, fs, 1, 0, 1⟩
          else
            let h2 := hSet h1 "Content-Length" (toString res.body.length)
            let ent : Entry :=
              { status := res.status, header := cloneHeaders h2, body := res.body }
            ⟨{ res with header := h2 }, dcSet fs dir key ent, 1, 1, 1⟩
    | none => baseForward fs origin r
  else baseForward fs origin r

/-! ## Spec-side definitions (used only to state claims, worded from the
specification rather than the source) -/

/-- Modelled from the spec: a request carries a header when the header map
has an entry under that (canonical) name. -/
def carriesHeader (r : Request) (k : String) : Bool :=
  (hFindRaw r.header (canonKey k)).isSome

/-- Modelled from the spec (claim C4 wording): method is exactly GET, no
Authorization header is carried, and the Cache-Control value has no
no-store token. -/
def specCacheEligible (r : Request) : Prop :=
  r.method = "GET" ∧ carriesHeader r "Authorization" = false ∧
    containsToken (hGet r.header "Cache-Control") "no-store" = false

/-! ## Interleaving semantics of concurrent DiskCache.Set calls

One thread per Set call.  Each thread runs the locked region of
DiskCache.Set as four atomic steps: acquire the per-key mutex (pc 0), marshal
and write the temporary file (pc 1), rename the temporary file over the final
path (pc 2), release the mutex (pc 3); pc 4 is done.  The lock table is the
DiskCache.locks sync.Map; the temporary and final files live in shared
path-indexed maps. -/

/-- One concurrent Set call. -/
structure SetThread where
  key : String
  entry : Entry

/-- Final path of a thread's write. -/
def fpathOf (dir : String) (t : SetThread) : String :=
  filePathForKey dir t.key

/-- Temporary path of a thread's write (final path plus .tmp, in the same
directory). -/
def tmpPathOf (dir : String) (t : SetThread) : String :=
  fpathOf dir t ++ ".tmp"

/-- Serialized payload a thread writes (json.Marshal of its entry). -/
def payloadOf (t : SetThread) : FsData :=
  .jsonFile (entryToJson t.entry)

/-- Directory part of a path: everything before the last slash. -/
def dirnameOf (p : String) : String :=
  String.mk ((p.data.reverse.dropWhile (fun c => c != '/')).drop 1).reverse

/-- Shared state of the interleaving semantics. -/
structure CState where
  pcs : List Nat
  locks : List (String × Nat)
  tmpf : Fs
  files : Fs

/-- One atomic step of thread t (a no-op when t is out of range, done, or
blocked on the mutex): acquire, write the temporary file, rename it over the
final path, release. -/
def cstep (dir : String) (ts : List SetThread) (s : CState) (t : Nat) : CState :=
  match ts[t]?, s.pcs[t]? with
  | some th, some 0 =>
    (match alookup s.locks th.key with
     | none => { s with locks := aset s.locks th.key t, pcs := s.pcs.set t 1 }
     | some _ => s)
  | some th, some 1 =>
    { s with tmpf := aset s.tmpf (tmpPathOf dir th) (payloadOf th),
             pcs := s.pcs.set t 2 }
  | some th, some 2 =>
    (match alookup s.tmpf (tmpPathOf dir th) with
     | some d =>
       { s with files := aset s.files (fpathOf dir th) d,
                tmpf := aremove s.tmpf (tmpPathOf dir th),
                pcs := s.pcs.set t 3 }
     | none => { s with pcs := s.pcs.set t 3 })
  | some th, some 3 =>
    { s with locks := aremove s.locks th.key, pcs := s.pcs.set t 4 }
  | _, _ => s

/-- Invariant of the interleaving semantics: program counters track the
thread list; every held lock belongs to a thread of that key inside its
locked region; threads inside the locked region hold their key's lock; a
thread about to rename sees its own payload in its temporary file; and once
some thread of a key has renamed, the key's final file holds the complete
payload of one of that key's threads. -/
structure CInv (dir : String) (ts : List SetThread) (s : CState) : Prop where
  lenEq : s.pcs.length = ts.length
  locksTh : ∀ (K : String) (j : Nat), alookup s.locks K = some j →
    ∃ th, ts[j]? = some th ∧ th.key = K ∧
      ∃ p, s.pcs[j]? = some p ∧ (p = 1 ∨ p = 2 ∨ p = 3)
  holdLock : ∀ (j : Nat) (th : SetThread) (p : Nat), ts[j]? = some th → s.pcs[j]? = some p →
    (p = 1 ∨ p = 2 ∨ p = 3) → alookup s.locks th.key = some j
  tmpOk : ∀ (j : Nat) (th : SetThread), ts[j]? = some th → s.pcs[j]? = some 2 →
    alookup s.tmpf (tmpPathOf dir th) = some (payloadOf th)
  fileOk : ∀ K : String,
    (∃ (j : Nat) (th : SetThread),
      ts[j]? = some th ∧ th.key = K ∧ ∃ p, s.pcs[j]? = some p ∧ 3 ≤ p) →
    ∃ th : SetThread, (∃ j : Nat, ts[j]? = some th ∧ th.key = K) ∧
      alookup s.files (filePathForKey dir K) = some (payloadOf th)

/-- Path injectivity of the thread pool: distinct keys of the pool map to
distinct shard paths (true of the hexadecimal keys the repository derives;
stated as a hypothesis of the concurrency theorems). -/
def PathInj (dir : String) (ts : List SetThread) : Prop :=
  ∀ thi ∈ ts, ∀ thj ∈ ts,
    fpathOf dir thi = fpathOf dir thj → thi.key = thj.key

/-- Run a schedule (a list of thread indices). -/
def crun (dir : String) (ts : List SetThread) (s : CState) (tr : List Nat) :
    CState :=
  tr.foldl (cstep dir ts) s

/-- Initial state over given initial files: every thread at pc 0, no locks
held, no temporary files. -/
def cinit (ts : List SetThread) (files0 : Fs) : CState :=
  ⟨List.replicate ts.length 0, [], [], files0⟩

/-- Thread t is blocked in s: it is at its acquire step and the mutex for
its key is taken. -/
def blockedIn (ts : List SetThread) (s : CState) (t : Nat) : Prop :=
  ∃ th, ts[t]? = some th ∧ s.pcs[t]? = some 0 ∧
    (alookup s.locks th.key).isSome

/-! ## Association list lemmas -/

theorem alookup_nil {α : Type} (k : String) :
    alookup ([] : List (String × α)) k = none := rfl

theorem alookup_cons {α : Type} (p : String × α) (l : List (String × α)) (k : String) :
    alookup (p :: l) k = if p.1 == k then some p.2 else alookup l k := by
  by_cases h : p.1 == k <;> simp_all [alookup, List.find?_cons]

theorem alookup_filter_self {α : Type} (l : List (String × α)) (k : String) :
    alookup (l.filter (fun p => p.1 != k)) k = none := by
  simp only [alookup, Option.map_eq_none', List.find?_eq_none, List.mem_filter]
  intro x hx
  simpa using hx.2

theorem alookup_filter_ne {α : Type} (l : List (String × α)) (k k' : String)
    (h : k' ≠ k) : alookup (l.filter (fun p => p.1 != k)) k' = alookup l k' := by
  induction l with
  | nil => rfl
  | cons a t ih =>
    by_cases ha : a.1 = k
    · have hne : (a.1 == k') = false := by simp [ha, h.symm]
      simp [List.filter_cons, ha, alookup_cons, hne, ih, Ne.symm h]
    · by_cases ha' : a.1 = k'
      · simp [List.filter_cons, ha, alookup_cons, ha', h]
      · simp [List.filter_cons, ha, alookup_cons, ha', ih]

theorem alookup_append {α : Type} (l₁ l₂ : List (String × α)) (k : String) :
    alookup (l₁ ++ l₂) k = (alookup l₁ k).or (alookup l₂ k) := by
  simp only [alookup, List.find?_append]
  cases l₁.find? (fun p => p.1 == k) <;> simp

theorem alookup_aset_self {α : Type} (l : List (String × α)) (k : String) (v : α) :
    alookup (aset l k v) k = some v := by
  simp [aset, alookup_append, alookup_filter_self, alookup_cons]

theorem alookup_aset_ne {α : Type} (l : List (String × α)) (k k' : String) (v : α)
    (h : k' ≠ k) : alookup (aset l k v) k' = alookup l k' := by
  have hne : (k == k') = false := by simp [h.symm]
  simp [aset, alookup_append, alookup_filter_ne _ _ _ h, alookup_cons, hne,
    alookup_nil]

theorem alookup_aremove_self {α : Type} (l : List (String × α)) (k : String) :
    alookup (aremove l k) k = none :=
  alookup_filter_self l k

theorem alookup_aremove_ne {α : Type} (l : List (String × α)) (k k' : String)
    (h : k' ≠ k) : alookup (aremove l k) k' = alookup l k' :=
  alookup_filter_ne l k k' h

theorem alookup_eq_none_of_not_mem {α : Type} (l : List (String × α)) (k : String)
    (h : k ∉ l.map Prod.fst) : alookup l k = none := by
  simp only [alookup, Option.map_eq_none', List.find?_eq_none]
  intro p hp
  simp only [beq_iff_eq]
  intro hk
  exact h (hk ▸ List.mem_map_of_mem Prod.fst hp)

/-- First-match lookup is permutation-invariant on key-distinct lists. -/
theorem alookup_perm {α : Type} {l₁ l₂ : List (String × α)} (hp : l₁.Perm l₂)
    (hd : (l₁.map Prod.fst).Nodup) (k : String) :
    alookup l₁ k = alookup l₂ k := by
  induction hp with
  | nil => rfl
  | cons a p ih =>
    simp only [List.map_cons, List.nodup_cons] at hd
    rw [alookup_cons, alookup_cons, ih hd.2]
  | swap a b l =>
    simp only [List.map_cons, List.nodup_cons, List.mem_cons] at hd
    have hab : b.1 ≠ a.1 := fun hcontra => hd.1 (Or.inl hcontra)
    rw [alookup_cons, alookup_cons, alookup_cons, alookup_cons]
    by_cases h1 : b.1 = k
    · have : (a.1 == k) = false := by
        simp only [beq_eq_false_iff_ne]
        exact fun hak => hab (h1.trans hak.symm)
      simp [h1, this]
    · simp [h1]
  | trans p1 p2 ih1 ih2 =>
    rw [ih1 hd, ih2 ((p1.map Prod.fst).nodup hd)]

/-! ## Header lemmas -/

theorem hVals_eq_alookup (h : Headers) (n : String) :
    hVals h n = (alookup h n).getD [] := rfl

theorem hGet_eq_headD (h : Headers) (k : String) :
    hGet h k = (hVals h (canonKey k)).headD "" := by
  unfold hGet hVals hFindRaw
  cases halt : alookup h (canonKey k) with
  | none => rfl
  | some vs => cases vs <;> rfl

theorem hVals_hSet_self (h : Headers) (k v : String) :
    hVals (hSet h k v) (canonKey k) = [v] := by
  simp [hVals, hFindRaw, hSet, alookup_aset_self]

theorem hVals_hSet_ne (h : Headers) (k v n : String) (hne : n ≠ canonKey k) :
    hVals (hSet h k v) n = hVals h n := by
  simp [hVals, hFindRaw, hSet, alookup_aset_ne _ _ _ _ hne]

theorem hVals_hDel_self (h : Headers) (k : String) :
    hVals (hDel h k) (canonKey k) = [] := by
  simp [hVals, hFindRaw, hDel, alookup_aremove_self]

theorem hVals_hDel_ne (h : Headers) (k n : String) (hne : n ≠ canonKey k) :
    hVals (hDel h k) n = hVals h n := by
  simp [hVals, hFindRaw, hDel, alookup_aremove_ne _ _ _ hne]

/-- A left fold of Header.Del over a list of names is one key filter. -/
theorem foldl_hDel_eq_filter (names : List String) (h : Headers) :
    names.foldl hDel h =
      h.filter (fun p => !((names.map canonKey).contains p.1)) := by
  induction names generalizing h with
  | nil => simp
  | cons n ns ih =>
    rw [List.foldl_cons, ih]
    show (hDel h n).filter _ = _
    rw [hDel, aremove, List.filter_filter]
    apply List.filter_congr
    intro p _
    by_cases hpn : p.1 = canonKey n
    · simp [hpn]
    · by_cases hpm : p.1 ∈ ns.map canonKey
      · simp [hpn, hpm, Ne.symm hpn]
      · simp [hpn, hpm, Ne.symm hpn]

/-- filterHopByHop removes exactly the pairs whose stored key is one of the
canonicalized removed names. -/
theorem filterHopByHop_eq_filter (h : Headers) :
    filterHopByHop h = h.filter (fun p => !((removedNames h).contains p.1)) := by
  rw [filterHopByHop]
  rw [foldl_hDel_eq_filter, foldl_hDel_eq_filter, List.filter_filter]
  apply List.filter_congr
  intro p _
  by_cases h1 : p.1 ∈ (connNominated h).map canonKey <;>
    by_cases h2 : p.1 ∈ hopHeaders.map canonKey <;>
      simp [removedNames, h1, h2]

theorem mem_filterHopByHop {h : Headers} {p : String × List String}
    (hm : p ∈ filterHopByHop h) :
    p ∈ h ∧ ((removedNames h).contains p.1) = false := by
  rw [filterHopByHop_eq_filter] at hm
  have := List.mem_filter.mp hm
  exact ⟨this.1, by simpa using this.2⟩

theorem connection_mem_removedNames (h : Headers) :
    "Connection" ∈ removedNames h := by
  rw [removedNames]
  exact List.mem_append_right _ (by decide)

theorem alookup_filterHopByHop_connection (h : Headers) :
    alookup (filterHopByHop h) "Connection" = none := by
  rw [filterHopByHop_eq_filter]
  simp only [alookup, Option.map_eq_none', List.find?_eq_none]
  intro p hp
  simp only [beq_iff_eq]
  intro hk
  have := (List.mem_filter.mp hp).2
  rw [hk] at this
  simp [connection_mem_removedNames h] at this

theorem hGet_filterHopByHop_connection (h : Headers) :
    hGet (filterHopByHop h) "Connection" = "" := by
  have hc : canonKey "Connection" = "Connection" := by decide
  rw [hGet, hFindRaw, hc, alookup_filterHopByHop_connection]

theorem connNominated_filterHopByHop (h : Headers) :
    connNominated (filterHopByHop h) = [] := by
  rw [connNominated, hGet_filterHopByHop_connection]
  rfl

/-- Sanitizing an already-sanitized header set changes nothing. -/
theorem filterHopByHop_idem (h : Headers) :
    filterHopByHop (filterHopByHop h) = filterHopByHop h := by
  rw [filterHopByHop_eq_filter (filterHopByHop h)]
  apply List.filter_eq_self.mpr
  intro p hp
  have hni := (mem_filterHopByHop hp).2
  rw [removedNames, connNominated_filterHopByHop]
  simp only [List.map_nil, List.nil_append, Bool.not_eq_true']
  cases hcon : (hopHeaders.map canonKey).contains p.1 with
  | false => rfl
  | true =>
    exfalso
    have hmem : p.1 ∈ hopHeaders.map canonKey := by simpa using hcon
    have : p.1 ∈ removedNames h := by
      rw [removedNames]
      exact List.mem_append_right _ hmem
    simp [this] at hni

/-! ## Sorting lemmas (sort.Strings and map-key marshalling order) -/

theorem insertStr_eq_orderedInsert (x : String) (l : List String) :
    insertStr x l = List.orderedInsert (· ≤ ·) x l := by
  induction l with
  | nil => rfl
  | cons y ys ih => simp [insertStr, List.orderedInsert, ih]

theorem sortStrings_eq_insertionSort (l : List String) :
    sortStrings l = List.insertionSort (· ≤ ·) l := by
  induction l with
  | nil => rfl
  | cons y ys ih =>
    simp [sortStrings, List.insertionSort, insertStr_eq_orderedInsert, ih,
      sortStrings] at ih ⊢
    rw [← ih]

/-- sort.Strings output is ascending. -/
theorem sortStrings_sorted (l : List String) :
    (sortStrings l).Sorted (· ≤ ·) := by
  rw [sortStrings_eq_insertionSort]
  exact List.sorted_insertionSort _ l

/-- sort.Strings output is a permutation of its input. -/
theorem sortStrings_perm (l : List String) : (sortStrings l).Perm l := by
  rw [sortStrings_eq_insertionSort]
  exact List.perm_insertionSort _ l

theorem insertPair_eq_orderedInsert (x : String × List String) (l : Headers) :
    insertPair x l = List.orderedInsert (fun p q => p.1 ≤ q.1) x l := by
  induction l with
  | nil => rfl
  | cons y ys ih => simp [insertPair, List.orderedInsert, ih]

theorem sortHdr_eq_insertionSort (h : Headers) :
    sortHdr h = List.insertionSort (fun p q => p.1 ≤ q.1) h := by
  induction h with
  | nil => rfl
  | cons y ys ih =>
    simp [sortHdr, List.insertionSort, insertPair_eq_orderedInsert, ih,
      sortHdr] at ih ⊢
    rw [← ih]

/-- Key-sorted marshalling order is a permutation of the header list. -/
theorem sortHdr_perm (h : Headers) : (sortHdr h).Perm h := by
  rw [sortHdr_eq_insertionSort]
  exact List.perm_insertionSort _ h

/-- Lookup is unchanged by the key sort on key-distinct headers. -/
theorem alookup_sortHdr (h : Headers) (hd : (h.map Prod.fst).Nodup)
    (k : String) : alookup (sortHdr h) k = alookup h k := by
  have hp := sortHdr_perm h
  exact alookup_perm hp (((sortHdr_perm h).symm.map Prod.fst).nodup hd) k

/-! ## copyHeaders lemmas -/

theorem alookup_none_all_false {α : Type} {l : List (String × α)} {k : String}
    (h : alookup l k = none) : ∀ p ∈ l, (p.1 == k) = false := by
  simp only [alookup, Option.map_eq_none', List.find?_eq_none] at h
  intro p hp
  simpa using h p hp

theorem alookup_filter_none {α : Type} (l : List (String × α))
    (q : String × α → Bool) (k : String) (h : alookup l k = none) :
    alookup (l.filter q) k = none := by
  simp only [alookup, Option.map_eq_none', List.find?_eq_none]
  intro p hp
  simpa using alookup_none_all_false h p (List.mem_filter.mp hp).1

theorem hAdd_absent (h : Headers) (k v : String) (hc : canonKey k = k)
    (ha : alookup h k = none) : hAdd h k v = h ++ [(k, [v])] := by
  rw [hAdd, hc]
  rw [if_neg]
  simp only [Option.isSome_iff_exists, not_exists]
  intro p hp
  have := List.find?_some hp
  have hmem := List.mem_of_find?_eq_some hp
  rw [alookup_none_all_false ha p hmem] at this
  exact absurd this (by simp)

theorem foldl_hAdd_present (vs : List String) (dst : Headers) (k : String)
    (acc : List String) (hc : canonKey k = k) (hdst : alookup dst k = none) :
    vs.foldl (fun d v => hAdd d k v) (dst ++ [(k, acc)]) =
      dst ++ [(k, acc ++ vs)] := by
  induction vs generalizing acc with
  | nil => simp
  | cons w ws ih =>
    rw [List.foldl_cons]
    have hstep : hAdd (dst ++ [(k, acc)]) k w = dst ++ [(k, acc ++ [w])] := by
      rw [hAdd, hc]
      rw [if_pos]
      · rw [List.map_append]
        congr 1
        · have hfix : ∀ p ∈ dst,
              (if p.1 == k then (p.1, p.2 ++ [w]) else p) = id p := by
            intro p hp
            rw [alookup_none_all_false hdst p hp]
            simp
          rw [List.map_congr_left hfix, List.map_id]
        · simp
      · rw [List.find?_append]
        have h1 : dst.find? (fun p => p.1 == k) = none := by
          simp only [List.find?_eq_none]
          intro p hp
          simpa using alookup_none_all_false hdst p hp
        simp [h1, List.find?]
    rw [hstep, ih (acc ++ [w]), List.append_assoc]
    simp

theorem foldl_hAdd_absent (vs : List String) (dst : Headers) (k : String)
    (hc : canonKey k = k) (hdst : alookup dst k = none) :
    vs.foldl (fun d v => hAdd d k v) dst =
      dst ++ (if vs.isEmpty then [] else [(k, vs)]) := by
  cases vs with
  | nil => simp
  | cons v ws =>
    rw [List.foldl_cons, hAdd_absent dst k v hc hdst,
      foldl_hAdd_present ws dst k [v] hc hdst]
    simp

/-- copyHeaders appends the non-empty source pairs when the source keys are
canonical, distinct and absent from the destination. -/
theorem copyHeaders_eq (src : Headers) (dst : Headers)
    (hcanon : ∀ p ∈ src, canonKey p.1 = p.1)
    (hnd : (src.map Prod.fst).Nodup)
    (hdisj : ∀ p ∈ src, alookup dst p.1 = none) :
    copyHeaders dst src = dst ++ src.filter (fun p => !p.2.isEmpty) := by
  induction src generalizing dst with
  | nil => simp [copyHeaders]
  | cons a t ih =>
    have hstep : copyHeaders dst (a :: t) =
        copyHeaders (a.2.foldl (fun d v => hAdd d a.1 v) dst) t := rfl
    rw [hstep, foldl_hAdd_absent a.2 dst a.1 (hcanon a (by simp))
      (hdisj a (by simp))]
    simp only [List.map_cons, List.nodup_cons] at hnd
    rw [ih (dst ++ if a.2.isEmpty then [] else [(a.1, a.2)])
      (fun p hp => hcanon p (List.mem_cons_of_mem a hp)) hnd.2
      (fun p hp => ?_)]
    · cases ha2 : a.2.isEmpty with
      | true =>
        have : a.2 = [] := by simpa using ha2
        simp [List.filter_cons, this]
      | false =>
        simp [List.filter_cons, ha2, List.append_assoc]
    · rw [alookup_append, hdisj p (List.mem_cons_of_mem a hp)]
      cases ha2 : a.2.isEmpty with
      | true => rfl
      | false =>
        rw [Option.none_or, if_neg Bool.false_ne_true, alookup_cons]
        have : (a.1 == p.1) = false := by
          simp only [beq_eq_false_iff_ne]
          intro hcontra
          exact hnd.1 (hcontra ▸ List.mem_map_of_mem Prod.fst hp)
        simp [this, alookup_nil]

theorem alookup_eq_of_not_keys {α : Type} {l : List (String × α)} {k : String} :
    alookup l k = none ∨ ∃ p, p ∈ l ∧ p.1 = k ∧ alookup l k = some p.2 := by
  induction l with
  | nil => exact Or.inl rfl
  | cons a t ih =>
    by_cases h : a.1 = k
    · refine Or.inr ⟨a, by simp, h, ?_⟩
      rw [alookup_cons, if_pos (by simpa using h)]
    · rcases ih with hn | ⟨p, hp, hpk, hs⟩
      · left
        rw [alookup_cons, if_neg (by simpa using h), hn]
      · refine Or.inr ⟨p, List.mem_cons_of_mem a hp, hpk, ?_⟩
        rw [alookup_cons, if_neg (by simpa using h), hs]

/-- Dropping empty-valued pairs from a key-distinct header list does not
change the value-list view. -/
theorem hVals_filter_nonempty (h : Headers) (hd : (h.map Prod.fst).Nodup)
    (n : String) :
    hVals (h.filter (fun p => !p.2.isEmpty)) n = hVals h n := by
  induction h with
  | nil => rfl
  | cons a t ih =>
    simp only [List.map_cons, List.nodup_cons] at hd
    by_cases han : a.1 = n
    · have hat : alookup t n = none := by
        apply alookup_eq_none_of_not_mem
        intro hmem
        exact hd.1 (han ▸ hmem)
      cases ha2 : a.2.isEmpty with
      | true =>
        have ha2' : a.2 = [] := by simpa using ha2
        rw [List.filter_cons]
        simp only [ha2, Bool.not_true, if_neg (by simp : ¬(false = true))]
        rw [hVals_eq_alookup, hVals_eq_alookup, alookup_cons,
          if_pos (by simpa using han), ha2',
          alookup_filter_none t _ n hat]
        rfl
      | false =>
        rw [List.filter_cons]
        simp only [ha2, Bool.not_false]
        rw [if_pos trivial, hVals_eq_alookup, hVals_eq_alookup, alookup_cons,
          alookup_cons, if_pos (by simpa using han), if_pos (by simpa using han)]
    · rw [List.filter_cons]
      cases ha2 : a.2.isEmpty with
      | true =>
        simp only [ha2, Bool.not_true, if_neg (by simp : ¬(false = true))]
        rw [ih hd.2, hVals_eq_alookup, hVals_eq_alookup, alookup_cons,
          if_neg (by simpa using han)]
      | false =>
        simp only [ha2, Bool.not_false]
        rw [if_pos trivial, hVals_eq_alookup, hVals_eq_alookup, alookup_cons,
          alookup_cons, if_neg (by simpa using han),
          if_neg (by simpa using han)]
        exact ih hd.2

/-- The hit-path header copy preserves the value-list view for canonical,
key-distinct stored headers. -/
theorem hVals_copyHeaders_nil (h : Headers)
    (hcanon : ∀ p ∈ h, canonKey p.1 = p.1)
    (hnd : (h.map Prod.fst).Nodup) (n : String) :
    hVals (copyHeaders [] h) n = hVals h n := by
  rw [copyHeaders_eq h [] hcanon hnd (fun p _ => rfl), List.nil_append]
  exact hVals_filter_nonempty h hnd n

/-! ## Base64 round trip -/

theorem b64idx_b64chr : ∀ n < 64, b64idx (b64chr n) = some n := by decide

theorem b64chr_ne_pad : ∀ n < 64, (b64chr n == '=') = false := by decide

theorem b64_roundtrip_chars : ∀ bs : List Nat, (∀ b ∈ bs, b < 256) →
    b64decodeChars (b64encodeChars bs) = some bs
  | [] => fun _ => rfl
  | [a] => fun h => by
    have ha : a < 256 := h a (by simp)
    have h1 : a * 65536 / 262144 < 64 := by omega
    have h2 : a * 65536 / 4096 % 64 < 64 := by omega
    have e1 : a * 65536 / 262144 * 4 + a * 65536 / 4096 % 64 / 16 = a := by
      omega
    show b64decodeChars
      (b64chr (a * 65536 / 262144) :: b64chr (a * 65536 / 4096 % 64) ::
        '=' :: '=' :: []) = some [a]
    rw [b64decodeChars]
    simp [b64idx_b64chr _ h1, b64idx_b64chr _ h2, e1]
  | [a, b] => fun h => by
    have ha : a < 256 := h a (by simp)
    have hb : b < 256 := h b (by simp)
    have h1 : (a * 65536 + b * 256) / 262144 < 64 := by omega
    have h2 : (a * 65536 + b * 256) / 4096 % 64 < 64 := by omega
    have h3 : (a * 65536 + b * 256) / 64 % 64 < 64 := by omega
    have e1 : (a * 65536 + b * 256) / 262144 * 4 +
        (a * 65536 + b * 256) / 4096 % 64 / 16 = a := by omega
    have e2 : (a * 65536 + b * 256) / 4096 % 64 % 16 * 16 +
        (a * 65536 + b * 256) / 64 % 64 / 4 = b := by omega
    show b64decodeChars
      (b64chr ((a * 65536 + b * 256) / 262144) ::
       b64chr ((a * 65536 + b * 256) / 4096 % 64) ::
       b64chr ((a * 65536 + b * 256) / 64 % 64) :: '=' :: []) = some [a, b]
    rw [b64decodeChars]
    simp [b64idx_b64chr _ h1, b64idx_b64chr _ h2, b64idx_b64chr _ h3,
      b64chr_ne_pad _ h3, e1, e2]
  | a :: b :: c :: rest => fun h => by
    have ha : a < 256 := h a (by simp)
    have hb : b < 256 := h b (by simp)
    have hc : c < 256 := h c (by simp)
    have hrest : ∀ x ∈ rest, x < 256 := fun x hx => h x (by simp [hx])
    have h1 : (a * 65536 + b * 256 + c) / 262144 < 64 := by omega
    have h2 : (a * 65536 + b * 256 + c) / 4096 % 64 < 64 := by omega
    have h3 : (a * 65536 + b * 256 + c) / 64 % 64 < 64 := by omega
    have h4 : (a * 65536 + b * 256 + c) % 64 < 64 := by omega
    have ihr := b64_roundtrip_chars rest hrest
    show b64decodeChars
      (b64chr ((a * 65536 + b * 256 + c) / 262144) ::
       b64chr ((a * 65536 + b * 256 + c) / 4096 % 64) ::
       b64chr ((a * 65536 + b * 256 + c) / 64 % 64) ::
       b64chr ((a * 65536 + b * 256 + c) % 64) :: b64encodeChars rest) =
      some (a :: b :: c :: rest)
    have e1 : (a * 65536 + b * 256 + c) / 262144 * 4 +
        (a * 65536 + b * 256 + c) / 4096 % 64 / 16 = a := by omega
    have e2 : (a * 65536 + b * 256 + c) / 4096 % 64 % 16 * 16 +
        (a * 65536 + b * 256 + c) / 64 % 64 / 4 = b := by omega
    have e3 : (a * 65536 + b * 256 + c) / 64 % 64 % 4 * 64 +
        (a * 65536 + b * 256 + c) % 64 = c := by omega
    rw [b64decodeChars]
    simp [b64idx_b64chr _ h1, b64idx_b64chr _ h2, b64idx_b64chr _ h3,
      b64idx_b64chr _ h4, b64chr_ne_pad _ h3, b64chr_ne_pad _ h4, ihr,
      e1, e2, e3]

/-- Round trip of the byte-slice JSON representation. -/
theorem b64_roundtrip (bs : List Nat) (h : ∀ b ∈ bs, b < 256) :
    b64decode (b64encode bs) = some bs := by
  rw [b64encode, b64decode]
  show b64decodeChars (String.mk (b64encodeChars bs)).data = some bs
  rw [show (String.mk (b64encodeChars bs)).data = b64encodeChars bs from rfl]
  exact b64_roundtrip_chars bs h

/-! ## Entry serialization round trip -/

theorem decodeVals_roundtrip (vs : List String) :
    decodeVals (Json.arr (vs.map Json.str)) = some vs := by
  induction vs with
  | nil => rfl
  | cons v t ih =>
    show (Json.str v :: t.map Json.str).mapM _ = _
    rw [List.mapM_cons]
    have iht : List.mapM.loop
        (fun j => match j with | Json.str s => some s | _ => none)
        (t.map Json.str) [] = some t := ih
    simp [iht]

theorem decodeHeader_roundtrip (h : Headers) :
    decodeHeader (some (Json.obj
      (h.map (fun p => (p.1, Json.arr (p.2.map Json.str)))))) = some h := by
  induction h with
  | nil => rfl
  | cons p t ih =>
    show ((p.1, Json.arr (p.2.map Json.str)) ::
        t.map (fun q => (q.1, Json.arr (q.2.map Json.str)))).mapM _ = _
    rw [List.mapM_cons]
    have iht : List.mapM.loop
        (fun q => (decodeVals q.2).map (fun vs => (q.1, vs)))
        (t.map (fun q => (q.1, Json.arr (q.2.map Json.str)))) [] = some t := ih
    simp [iht, decodeVals_roundtrip]

/-- Unmarshalling a marshalled entry restores it with the header pairs in
marshalling (key-sorted) order. -/
theorem entry_roundtrip (e : Entry) (hbody : ∀ b ∈ e.body, b < 256) :
    entryFromJson (entryToJson e) =
      some ⟨e.status, sortHdr e.header, e.body⟩ := by
  rw [entryToJson]
  show entryFromJson (.obj _) = _
  rw [entryFromJson]
  have f1 : jsonField
      [("Status", Json.num e.status),
       ("Header", Json.obj ((sortHdr e.header).map
         (fun p => (p.1, Json.arr (p.2.map Json.str))))),
       ("Body", Json.str (b64encode e.body))] "Status" =
      some (Json.num e.status) := rfl
  have f2 : jsonField
      [("Status", Json.num e.status),
       ("Header", Json.obj ((sortHdr e.header).map
         (fun p => (p.1, Json.arr (p.2.map Json.str))))),
       ("Body", Json.str (b64encode e.body))] "Header" =
      some (Json.obj ((sortHdr e.header).map
        (fun p => (p.1, Json.arr (p.2.map Json.str))))) := rfl
  have f3 : jsonField
      [("Status", Json.num e.status),
       ("Header", Json.obj ((sortHdr e.header).map
         (fun p => (p.1, Json.arr (p.2.map Json.str))))),
       ("Body", Json.str (b64encode e.body))] "Body" =
      some (Json.str (b64encode e.body)) := rfl
  rw [f1, f2, f3, decodeHeader_roundtrip (sortHdr e.header)]
  have hb : decodeBody (some (Json.str (b64encode e.body))) = some e.body :=
    b64_roundtrip e.body hbody
  show ((some e.status).bind fun st =>
      (some (sortHdr e.header)).bind fun hd =>
        (decodeBody (some (Json.str (b64encode e.body)))).bind fun bd =>
          some (Entry.mk st hd bd)) =
    some (Entry.mk e.status (sortHdr e.header) e.body)
  rw [Option.some_bind, Option.some_bind, hb, Option.some_bind]

/-! ## Store lemmas -/

theorem path_ne_tmp (p : String) : p ≠ p ++ ".tmp" := by
  intro h
  have hlen := congrArg String.length h
  rw [String.length_append] at hlen
  have h4 : (".tmp" : String).length = 4 := rfl
  rw [h4] at hlen
  omega

/-- After DiskCache.Set the key's file holds the marshalled entry. -/
theorem fsLookup_dcSet_self (fs : Fs) (dir key : String) (e : Entry) :
    fsLookup (dcSet fs dir key e) (filePathForKey dir key) =
      some (.jsonFile (entryToJson e)) := by
  rw [dcSet]
  have htmp : fsLookup
      (fsWrite fs (filePathForKey dir key ++ ".tmp") (.jsonFile (entryToJson e)))
      (filePathForKey dir key ++ ".tmp") = some (.jsonFile (entryToJson e)) :=
    alookup_aset_self _ _ _
  rw [fsRename, htmp]
  exact alookup_aset_self _ _ _

/-- Reading back immediately after DiskCache.Set yields the marshalled and
unmarshalled entry. -/
theorem dcGet_dcSet_self (fs : Fs) (dir key : String) (e : Entry)
    (hbody : ∀ b ∈ e.body, b < 256) :
    dcGet (dcSet fs dir key e) dir key =
      ⟨some ⟨e.status, sortHdr e.header, e.body⟩, true, false⟩ := by
  rw [dcGet, fsLookup_dcSet_self fs dir key e]
  show (match entryFromJson (entryToJson e) with
    | none => (⟨none, false, true⟩ : GetRes)
    | some e' => ⟨some e', true, false⟩) = _
  rw [entry_roundtrip e hbody]

/-- DiskCache.Set leaves every path other than the key's final and temporary
path unchanged. -/
theorem dcSet_other_path (fs : Fs) (dir key : String) (e : Entry) (p : String)
    (hp1 : p ≠ filePathForKey dir key)
    (hp2 : p ≠ filePathForKey dir key ++ ".tmp") :
    fsLookup (dcSet fs dir key e) p = fsLookup fs p := by
  rw [dcSet]
  have htmp : fsLookup
      (fsWrite fs (filePathForKey dir key ++ ".tmp") (.jsonFile (entryToJson e)))
      (filePathForKey dir key ++ ".tmp") = some (.jsonFile (entryToJson e)) :=
    alookup_aset_self _ _ _
  rw [fsRename, htmp]
  show alookup (aset (aremove _ _) _ _) p = _
  rw [alookup_aset_ne _ _ _ _ hp1, alookup_aremove_ne _ _ _ hp2]
  exact alookup_aset_ne _ _ _ _ hp2

/-! ## Invariant preservation for the Set interleaving semantics -/

theorem tmpPath_inj (dir : String) (thi thj : SetThread)
    (h : tmpPathOf dir thi = tmpPathOf dir thj) :
    fpathOf dir thi = fpathOf dir thj := by
  rw [tmpPathOf, tmpPathOf] at h
  have hd := congrArg String.data h
  rw [String.data_append, String.data_append] at hd
  have := List.append_cancel_right hd
  cases thi
  cases thj
  exact congrArg String.mk this

theorem cinv_step (dir : String) (ts : List SetThread) (hinj : PathInj dir ts)
    (s : CState) (hs : CInv dir ts s) (t : Nat) :
    CInv dir ts (cstep dir ts s t) := by
  cases hts : ts[t]? with
  | none =>
    have hstep : cstep dir ts s t = s := by
      cases hpc : s.pcs[t]? <;> simp [cstep, hts, hpc]
    rw [hstep]; exact hs
  | some th =>
  cases hpc : s.pcs[t]? with
  | none =>
    have hstep : cstep dir ts s t = s := by simp [cstep, hts, hpc]
    rw [hstep]; exact hs
  | some pc =>
  have hlt : t < s.pcs.length := (List.getElem?_eq_some_iff.mp hpc).1
  cases pc with
  | zero =>
    cases hlock : alookup s.locks th.key with
    | some j =>
      have hstep : cstep dir ts s t = s := by simp [cstep, hts, hpc, hlock]
      rw [hstep]; exact hs
    | none =>
      have hstep : cstep dir ts s t =
          ⟨s.pcs.set t 1, aset s.locks th.key t, s.tmpf, s.files⟩ := by
        simp [cstep, hts, hpc, hlock]
      rw [hstep]
      refine ⟨by simpa using hs.lenEq, ?_, ?_, ?_, ?_⟩
      · intro K j hKj
        by_cases hK : K = th.key
        · subst hK
          rw [show (⟨s.pcs.set t 1, aset s.locks th.key t, s.tmpf, s.files⟩ :
              CState).locks = aset s.locks th.key t from rfl,
            alookup_aset_self] at hKj
          obtain rfl : t = j := Option.some_inj.mp hKj
          exact ⟨th, hts, rfl, 1,
            by simpa using List.getElem?_set_self hlt, Or.inl rfl⟩
        · rw [show (⟨s.pcs.set t 1, aset s.locks th.key t, s.tmpf, s.files⟩ :
              CState).locks = aset s.locks th.key t from rfl,
            alookup_aset_ne _ _ _ _ hK] at hKj
          obtain ⟨th', hth', hkey', p, hp, hp123⟩ := hs.locksTh K j hKj
          have hjt : j ≠ t := by
            rintro rfl
            rw [hpc] at hp
            have : (0 : Nat) = p := Option.some_inj.mp hp
            rcases hp123 with h1 | h1 | h1 <;> omega
          exact ⟨th', hth', hkey', p,
            by simpa [List.getElem?_set_ne (fun h => hjt h.symm)] using hp,
            hp123⟩
      · intro j th' p hth' hp hp123
        by_cases hjt : j = t
        · subst hjt
          have hth : th' = th := by
            rw [hts] at hth'
            exact (Option.some_inj.mp hth').symm
          subst hth
          simp only at hp ⊢
          rw [List.getElem?_set_self hlt] at hp
          exact alookup_aset_self _ _ _ ▸ rfl
        · simp only at hp ⊢
          rw [List.getElem?_set_ne (fun h => hjt h.symm)] at hp
          have hold := hs.holdLock j th' p hth' hp hp123
          by_cases hK : th'.key = th.key
          · rw [hK] at hold
            rw [hlock] at hold
            cases hold
          · rw [alookup_aset_ne _ _ _ _ hK]
            exact hold
      · intro j th' hth' hp
        simp only at hp ⊢
        by_cases hjt : j = t
        · subst hjt
          rw [List.getElem?_set_self hlt] at hp
          cases hp
        · rw [List.getElem?_set_ne (fun h => hjt h.symm)] at hp
          exact hs.tmpOk j th' hth' hp
      · intro K hant
        simp only at hant ⊢
        obtain ⟨j, th', hth', hkey', p, hp, hp3⟩ := hant
        have hjt : j ≠ t := by
          rintro rfl
          rw [List.getElem?_set_self hlt] at hp
          have : (1 : Nat) = p := Option.some_inj.mp hp
          omega
        rw [List.getElem?_set_ne (fun h => hjt h.symm)] at hp
        exact hs.fileOk K ⟨j, th', hth', hkey', p, hp, hp3⟩
  | succ p1 =>
  cases p1 with
  | zero =>
    have hstep : cstep dir ts s t =
        ⟨s.pcs.set t 2, s.locks,
         aset s.tmpf (tmpPathOf dir th) (payloadOf th), s.files⟩ := by
      simp [cstep, hts, hpc]
    rw [hstep]
    have hlockt : alookup s.locks th.key = some t :=
      hs.holdLock t th 1 hts hpc (Or.inl rfl)
    refine ⟨by simpa using hs.lenEq, ?_, ?_, ?_, ?_⟩
    · intro K j hKj
      simp only at hKj ⊢
      obtain ⟨th', hth', hkey', p, hp, hp123⟩ := hs.locksTh K j hKj
      by_cases hjt : j = t
      · subst hjt
        exact ⟨th', hth', hkey', 2,
          by simpa using List.getElem?_set_self hlt, Or.inr (Or.inl rfl)⟩
      · exact ⟨th', hth', hkey', p,
          by simpa [List.getElem?_set_ne (fun h => hjt h.symm)] using hp,
          hp123⟩
    · intro j th' p hth' hp hp123
      simp only at hp ⊢
      by_cases hjt : j = t
      · subst hjt
        have hth : th' = th := by
          rw [hts] at hth'
          exact (Option.some_inj.mp hth').symm
        subst hth
        exact hlockt
      · rw [List.getElem?_set_ne (fun h => hjt h.symm)] at hp
        exact hs.holdLock j th' p hth' hp hp123
    · intro j th' hth' hp
      simp only at hp ⊢
      by_cases hjt : j = t
      · subst hjt
        have hth : th' = th := by
          rw [hts] at hth'
          exact (Option.some_inj.mp hth').symm
        subst hth
        exact alookup_aset_self _ _ _
      · rw [List.getElem?_set_ne (fun h => hjt h.symm)] at hp
        have hold := hs.tmpOk j th' hth' hp
        by_cases hpath : tmpPathOf dir th' = tmpPathOf dir th
        · exfalso
          have hkey : th'.key = th.key :=
            hinj th' (List.getElem?_mem hth') th (List.getElem?_mem hts)
              (tmpPath_inj dir th' th hpath)
          have h1 := hs.holdLock j th' 2 hth' hp (Or.inr (Or.inl rfl))
          rw [hkey, hlockt] at h1
          have : t = j := Option.some_inj.mp h1
          exact hjt this.symm
        · rw [alookup_aset_ne _ _ _ _ hpath]
          exact hold
    · intro K hant
      simp only at hant ⊢
      obtain ⟨j, th', hth', hkey', p, hp, hp3⟩ := hant
      have hjt : j ≠ t := by
        rintro rfl
        rw [List.getElem?_set_self hlt] at hp
        have : (2 : Nat) = p := Option.some_inj.mp hp
        omega
      rw [List.getElem?_set_ne (fun h => hjt h.symm)] at hp
      exact hs.fileOk K ⟨j, th', hth', hkey', p, hp, hp3⟩
  | succ p2 =>
  cases p2 with
  | zero =>
    have htmpt : alookup s.tmpf (tmpPathOf dir th) = some (payloadOf th) :=
      hs.tmpOk t th hts hpc
    have hstep : cstep dir ts s t =
        ⟨s.pcs.set t 3, s.locks, aremove s.tmpf (tmpPathOf dir th),
         aset s.files (fpathOf dir th) (payloadOf th)⟩ := by
      simp [cstep, hts, hpc, htmpt]
    rw [hstep]
    have hlockt : alookup s.locks th.key = some t :=
      hs.holdLock t th 2 hts hpc (Or.inr (Or.inl rfl))
    refine ⟨by simpa using hs.lenEq, ?_, ?_, ?_, ?_⟩
    · intro K j hKj
      simp only at hKj ⊢
      obtain ⟨th', hth', hkey', p, hp, hp123⟩ := hs.locksTh K j hKj
      by_cases hjt : j = t
      · subst hjt
        exact ⟨th', hth', hkey', 3,
          by simpa using List.getElem?_set_self hlt, Or.inr (Or.inr rfl)⟩
      · exact ⟨th', hth', hkey', p,
          by simpa [List.getElem?_set_ne (fun h => hjt h.symm)] using hp,
          hp123⟩
    · intro j th' p hth' hp hp123
      simp only at hp ⊢
      by_cases hjt : j = t
      · subst hjt
        have hth : th' = th := by
          rw [hts] at hth'
          exact (Option.some_inj.mp hth').symm
        subst hth
        exact hlockt
      · rw [List.getElem?_set_ne (fun h => hjt h.symm)] at hp
        exact hs.holdLock j th' p hth' hp hp123
    · intro j th' hth' hp
      simp only at hp ⊢
      by_cases hjt : j = t
      · subst hjt
        rw [List.getElem?_set_self hlt] at hp
        cases hp
      · rw [List.getElem?_set_ne (fun h => hjt h.symm)] at hp
        have hold := hs.tmpOk j th' hth' hp
        by_cases hpath : tmpPathOf dir th' = tmpPathOf dir th
        · exfalso
          have hkey : th'.key = th.key :=
            hinj th' (List.getElem?_mem hth') th (List.getElem?_mem hts)
              (tmpPath_inj dir th' th hpath)
          have h1 := hs.holdLock j th' 2 hth' hp (Or.inr (Or.inl rfl))
          rw [hkey, hlockt] at h1
          have : t = j := Option.some_inj.mp h1
          exact hjt this.symm
        · rw [alookup_aremove_ne _ _ _ hpath]
          exact hold
    · intro K hant
      simp only at hant ⊢
      by_cases hK : K = th.key
      · subst hK
        refine ⟨th, ⟨t, hts, rfl⟩, ?_⟩
        show alookup (aset s.files (fpathOf dir th) (payloadOf th))
          (filePathForKey dir th.key) = some (payloadOf th)
        rw [show filePathForKey dir th.key = fpathOf dir th from rfl]
        exact alookup_aset_self _ _ _
      · obtain ⟨j, th', hth', hkey', p, hp, hp3⟩ := hant
        have hjt : j ≠ t := by
          rintro rfl
          rw [hts] at hth'
          have hth : th' = th := (Option.some_inj.mp hth').symm
          exact hK (hth ▸ hkey'.symm)
        rw [List.getElem?_set_ne (fun h => hjt h.symm)] at hp
        obtain ⟨th'', hex, hfile⟩ := hs.fileOk K ⟨j, th', hth', hkey', p, hp, hp3⟩
        refine ⟨th'', hex, ?_⟩
        show alookup (aset s.files (fpathOf dir th) (payloadOf th))
          (filePathForKey dir K) = some (payloadOf th'')
        have hpne : filePathForKey dir K ≠ fpathOf dir th := by
          intro hcontra
          obtain ⟨j2, hj2, hj2k⟩ := hex
          have hfp : fpathOf dir th'' = fpathOf dir th := by
            rw [fpathOf, hj2k, hcontra]
          exact hK (hj2k.symm.trans
            (hinj th'' (List.getElem?_mem hj2) th (List.getElem?_mem hts) hfp))
        rw [alookup_aset_ne _ _ _ _ hpne]
        exact hfile
  | succ p3 =>
  cases p3 with
  | zero =>
    have hstep : cstep dir ts s t =
        ⟨s.pcs.set t 4, aremove s.locks th.key, s.tmpf, s.files⟩ := by
      simp [cstep, hts, hpc]
    rw [hstep]
    have hlockt : alookup s.locks th.key = some t :=
      hs.holdLock t th 3 hts hpc (Or.inr (Or.inr rfl))
    refine ⟨by simpa using hs.lenEq, ?_, ?_, ?_, ?_⟩
    · intro K j hKj
      simp only at hKj ⊢
      by_cases hK : K = th.key
      · subst hK
        rw [alookup_aremove_self] at hKj
        cases hKj
      · rw [alookup_aremove_ne _ _ _ hK] at hKj
        obtain ⟨th', hth', hkey', p, hp, hp123⟩ := hs.locksTh K j hKj
        have hjt : j ≠ t := by
          rintro rfl
          rw [hts] at hth'
          have hth : th' = th := (Option.some_inj.mp hth').symm
          exact hK (hth ▸ hkey'.symm)
        exact ⟨th', hth', hkey', p,
          by simpa [List.getElem?_set_ne (fun h => hjt h.symm)] using hp,
          hp123⟩
    · intro j th' p hth' hp hp123
      simp only at hp ⊢
      by_cases hjt : j = t
      · subst hjt
        rw [List.getElem?_set_self hlt] at hp
        have : (4 : Nat) = p := Option.some_inj.mp hp
        rcases hp123 with h1 | h1 | h1 <;> omega
      · rw [List.getElem?_set_ne (fun h => hjt h.symm)] at hp
        have hold := hs.holdLock j th' p hth' hp hp123
        by_cases hK : th'.key = th.key
        · exfalso
          rw [hK, hlockt] at hold
          have : t = j := Option.some_inj.mp hold
          exact hjt this.symm
        · rw [alookup_aremove_ne _ _ _ hK]
          exact hold
    · intro j th' hth' hp
      simp only at hp ⊢
      by_cases hjt : j = t
      · subst hjt
        rw [List.getElem?_set_self hlt] at hp
        cases hp
      · rw [List.getElem?_set_ne (fun h => hjt h.symm)] at hp
        exact hs.tmpOk j th' hth' hp
    · intro K hant
      simp only at hant ⊢
      obtain ⟨j, th', hth', hkey', p, hp, hp3⟩ := hant
      by_cases hjt : j = t
      · subst hjt
        have hth : th' = th := by
          rw [hts] at hth'
          exact (Option.some_inj.mp hth').symm
        subst hth
        exact hs.fileOk K ⟨j, th', hts, hkey', 3, hpc, by omega⟩
      · rw [List.getElem?_set_ne (fun h => hjt h.symm)] at hp
        exact hs.fileOk K ⟨j, th', hth', hkey', p, hp, hp3⟩
  | succ p4 =>
    have hstep : cstep dir ts s t = s := by
      simp [cstep, hts, hpc]
    rw [hstep]; exact hs

theorem cinv_init (dir : String) (ts : List SetThread) (files0 : Fs) :
    CInv dir ts (cinit ts files0) := by
  refine ⟨by simp [cinit], ?_, ?_, ?_, ?_⟩
  · intro K j hKj
    simp [cinit, alookup] at hKj
  · intro j th p hth hp hp123
    rw [show (cinit ts files0).pcs = List.replicate ts.length 0 from rfl,
      List.getElem?_replicate] at hp
    split at hp
    · have : (0 : Nat) = p := Option.some_inj.mp hp
      rcases hp123 with h1 | h1 | h1 <;> omega
    · cases hp
  · intro j th hth hp
    rw [show (cinit ts files0).pcs = List.replicate ts.length 0 from rfl,
      List.getElem?_replicate] at hp
    split at hp
    · cases hp
    · cases hp
  · intro K hant
    obtain ⟨j, th, hth, hkey, p, hp, hp3⟩ := hant
    rw [show (cinit ts files0).pcs = List.replicate ts.length 0 from rfl,
      List.getElem?_replicate] at hp
    split at hp
    · have : (0 : Nat) = p := Option.some_inj.mp hp
      omega
    · cases hp

theorem cinv_run (dir : String) (ts : List SetThread) (hinj : PathInj dir ts)
    (tr : List Nat) (s : CState) (hs : CInv dir ts s) :
    CInv dir ts (crun dir ts s tr) := by
  induction tr generalizing s with
  | nil => exact hs
  | cons t tr ih => exact ih (cstep dir ts s t) (cinv_step dir ts hinj s hs t)

/-- A blocked acquire always has a same-key blocker holding the mutex. -/
theorem blocked_same_key (dir : String) (ts : List SetThread) (s : CState)
    (hs : CInv dir ts s) (t : Nat) (hb : blockedIn ts s t) :
    ∃ (th : SetThread) (j : Nat) (th' : SetThread),
      ts[t]? = some th ∧ j ≠ t ∧ ts[j]? = some th' ∧ th'.key = th.key ∧
      alookup s.locks th.key = some j := by
  obtain ⟨th, hth, hpc0, hl⟩ := hb
  obtain ⟨j, hj⟩ := Option.isSome_iff_exists.mp hl
  obtain ⟨th', hth', hkey', p, hp, hp123⟩ := hs.locksTh th.key j hj
  have hjt : j ≠ t := by
    rintro rfl
    rw [hpc0] at hp
    have : (0 : Nat) = p := Option.some_inj.mp hp
    rcases hp123 with h1 | h1 | h1 <;> omega
  exact ⟨th, j, th', hth, hjt, hth', hkey', hj⟩

/-- The temporary file of a Set call lives in the same directory as the
final shard path. -/
theorem dirnameOf_tmpPath (dir : String) (th : SetThread) :
    dirnameOf (tmpPathOf dir th) = dirnameOf (fpathOf dir th) := by
  rw [tmpPathOf, dirnameOf, dirnameOf, String.data_append,
    List.reverse_append]
  rfl

/-! ## Header bookkeeping for the handler proofs -/

theorem alookup_filter_keypred {α : Type} (l : List (String × α))
    (pred : String → Bool) (k : String) :
    alookup (l.filter (fun q => pred q.1)) k =
      if pred k then alookup l k else none := by
  induction l with
  | nil => cases hpk : pred k <;> simp [hpk, alookup_nil]
  | cons a t ih =>
    rw [List.filter_cons]
    by_cases hak : a.1 = k
    · subst hak
      cases hpk : pred a.1 with
      | true => simp [hpk, alookup_cons, ih]
      | false => simp [hpk, alookup_cons, ih]
    · have hbeq : (a.1 == k) = false := by simpa using hak
      cases hpa : pred a.1 with
      | true => simp [alookup_cons, hbeq, ih]
      | false => simp [alookup_cons, hbeq, ih]

theorem hVals_filterHopByHop (h : Headers) (n : String) :
    hVals (filterHopByHop h) n =
      if (removedNames h).contains n then [] else hVals h n := by
  rw [filterHopByHop_eq_filter, hVals_eq_alookup,
    alookup_filter_keypred h (fun q => !((removedNames h).contains q)) n]
  cases hc : (removedNames h).contains n <;> simp [hc, hVals_eq_alookup]

theorem hVals_cloneHeaders (h : Headers) (n : String) :
    hVals (cloneHeaders h) n = sortStrings (hVals h n) := by
  induction h with
  | nil => rfl
  | cons a t ih =>
    rw [cloneHeaders, List.map_cons]
    by_cases hak : a.1 = n
    · rw [hVals_eq_alookup, alookup_cons, hVals_eq_alookup, alookup_cons]
      simp [hak]
    · rw [hVals_eq_alookup, alookup_cons, hVals_eq_alookup, alookup_cons,
        if_neg (by simpa using hak), if_neg (by simpa using hak)]
      exact ih

theorem hGet_hSet_ne (h : Headers) (k v n : String)
    (hne : canonKey n ≠ canonKey k) : hGet (hSet h k v) n = hGet h n := by
  rw [hGet, hGet, hFindRaw, hFindRaw, hSet, alookup_aset_ne _ _ _ _ hne]

theorem keys_hSet_nodup (h : Headers) (k v : String)
    (hnd : (h.map Prod.fst).Nodup) :
    (((hSet h k v).map Prod.fst)).Nodup := by
  rw [hSet, aset, List.map_append]
  simp only [List.map_cons, List.map_nil]
  rw [List.nodup_append]
  refine ⟨?_, by simp, ?_⟩
  · have hmf : (h.filter (fun p => p.1 != canonKey k)).map Prod.fst =
        (h.map Prod.fst).filter (fun x => x != canonKey k) := by
      clear hnd
      induction h with
      | nil => rfl
      | cons a t iht =>
        cases hc : (a.1 != canonKey k) <;>
          simp [List.filter_cons, hc, iht]
    rw [hmf]
    exact hnd.filter _
  · intro x hx
    simp only [List.mem_map, List.mem_filter] at hx
    obtain ⟨p, ⟨_, hpk⟩, rfl⟩ := hx
    simp only [List.mem_singleton]
    intro hcontra
    rw [hcontra] at hpk
    simp at hpk

theorem keys_filter_nodup (h : Headers) (pred : String × List String → Bool)
    (hnd : (h.map Prod.fst).Nodup) :
    ((h.filter pred).map Prod.fst).Nodup :=
  (List.Sublist.map Prod.fst (List.filter_sublist h)).nodup hnd

theorem keys_cloneHeaders (h : Headers) :
    (cloneHeaders h).map Prod.fst = h.map Prod.fst := by
  rw [cloneHeaders, List.map_map]
  rfl

theorem keys_sortHdr_nodup (h : Headers) (hnd : (h.map Prod.fst).Nodup) :
    ((sortHdr h).map Prod.fst).Nodup :=
  (((sortHdr_perm h).symm).map Prod.fst).nodup hnd

theorem mem_sortHdr {h : Headers} {p : String × List String}
    (hp : p ∈ sortHdr h) : p ∈ h :=
  (sortHdr_perm h).mem_iff.mp hp

theorem mem_cloneHeaders {h : Headers} {p : String × List String}
    (hp : p ∈ cloneHeaders h) : ∃ q ∈ h, p.1 = q.1 := by
  rw [cloneHeaders] at hp
  obtain ⟨q, hq, rfl⟩ := List.mem_map.mp hp
  exact ⟨q, hq, rfl⟩

theorem mem_hSet {h : Headers} {k v : String} {p : String × List String}
    (hp : p ∈ hSet h k v) : p ∈ h ∨ p.1 = canonKey k := by
  rw [hSet, aset] at hp
  rcases List.mem_append.mp hp with hl | hr
  · exact Or.inl (List.mem_filter.mp hl).1
  · simp only [List.mem_singleton] at hr
    exact Or.inr (by rw [hr])

theorem canonKey_idem_xcache : canonKey "X-Cache" = "X-Cache" := by decide

theorem canonKey_idem_clen : canonKey "Content-Length" = "Content-Length" := by
  decide

theorem canonKey_idem_conn : canonKey "Connection" = "Connection" := by decide

/-! ## Handler unfolding lemmas -/

theorem buildCacheKeyOpt_eq (originBase : String) (base : UrlT) (r : Request)
    (hparse : parseURL originBase = some base) :
    buildCacheKeyOpt originBase r = some (buildCacheKey base r) := by
  rw [buildCacheKeyOpt, hparse]
  rfl

/-- An ineligible request goes through the base reverse proxy. -/
theorem handle_ineligible (originBase : String) (cacheOn : Bool) (dir : String)
    (fs : Fs) (origin : Request → Option Response) (r : Request)
    (h : cacheEligibleB r = false) :
    handle originBase cacheOn dir fs origin r = baseForward fs origin r := by
  rw [handle, h]
  simp

/-- With the cache disabled every request goes through the base proxy. -/
theorem handle_cacheOff (originBase : String) (dir : String) (fs : Fs)
    (origin : Request → Option Response) (r : Request) :
    handle originBase false dir fs origin r = baseForward fs origin r := by
  rw [handle]
  simp

/-- Hit path: serve the stored entry, no origin call, no write. -/
theorem handle_hit (originBase : String) (base : UrlT) (dir : String) (fs : Fs)
    (origin : Request → Option Response) (r : Request) (ent : Entry)
    (hparse : parseURL originBase = some base)
    (helig : cacheEligibleB r = true)
    (hent : (dcGet fs dir (buildCacheKey base r)).entry = some ent) :
    handle originBase true dir fs origin r =
      ⟨⟨ent.status,
        filterHopByHop (hSet (copyHeaders [] ent.header) "X-Cache" "HIT"),
        ent.body⟩, fs, 1, 0, 0⟩ := by
  rw [handle, helig]
  simp only [Bool.and_self, if_true,
    buildCacheKeyOpt_eq originBase base r hparse, hent]

/-- Miss path with an unreachable origin: bad gateway, nothing stored. -/
theorem handle_miss_fail (originBase : String) (base : UrlT) (dir : String)
    (fs : Fs) (origin : Request → Option Response) (r : Request)
    (hparse : parseURL originBase = some base)
    (helig : cacheEligibleB r = true)
    (hent : (dcGet fs dir (buildCacheKey base r)).entry = none)
    (horigin : origin (dirRequest r) = none) :
    handle originBase true dir fs origin r = ⟨badGatewayResp, fs, 1, 0, 1⟩ := by
  rw [handle, helig]
  simp only [Bool.and_self, if_true,
    buildCacheKeyOpt_eq originBase base r hparse, hent, horigin]

/-- Miss path with a no-store response: tag MISS, relay, store nothing. -/
theorem handle_miss_nostore (originBase : String) (base : UrlT) (dir : String)
    (fs : Fs) (origin : Request → Option Response) (r : Request)
    (res : Response)
    (hparse : parseURL originBase = some base)
    (helig : cacheEligibleB r = true)
    (hent : (dcGet fs dir (buildCacheKey base r)).entry = none)
    (horigin : origin (dirRequest r) = some res)
    (hns : containsToken
      (hGet (hSet (filterHopByHop res.header) "X-Cache" "MISS") "Cache-Control")
      "no-store" = true) :
    handle originBase true dir fs origin r =
      ⟨⟨res.status, hSet (filterHopByHop res.header) "X-Cache" "MISS",
        res.body⟩, fs, 1, 0, 1⟩ := by
  rw [handle, helig]
  simp only [Bool.and_self, if_true,
    buildCacheKeyOpt_eq originBase base r hparse, hent, horigin, hns]

/-- Miss path with a storable response: tag MISS, set Content-Length, clone
headers into the entry, store, relay. -/
theorem handle_miss_store (originBase : String) (base : UrlT) (dir : String)
    (fs : Fs) (origin : Request → Option Response) (r : Request)
    (res : Response)
    (hparse : parseURL originBase = some base)
    (helig : cacheEligibleB r = true)
    (hent : (dcGet fs dir (buildCacheKey base r)).entry = none)
    (horigin : origin (dirRequest r) = some res)
    (hns : containsToken
      (hGet (hSet (filterHopByHop res.header) "X-Cache" "MISS") "Cache-Control")
      "no-store" = false) :
    handle originBase true dir fs origin r =
      ⟨⟨res.status,
        hSet (hSet (filterHopByHop res.header) "X-Cache" "MISS")
          "Content-Length" (toString res.body.length), res.body⟩,
       dcSet fs dir (buildCacheKey base r)
         ⟨res.status,
          cloneHeaders (hSet (hSet (filterHopByHop res.header) "X-Cache" "MISS")
            "Content-Length" (toString res.body.length)), res.body⟩,
       1, 1, 1⟩ := by
  rw [handle, helig]
  simp only [Bool.and_self, if_true,
    buildCacheKeyOpt_eq originBase base r hparse, hent, horigin, hns,
    Bool.false_eq_true, if_false]

theorem map_fst_filter_keypred {α : Type} (l : List (String × α))
    (pred : String → Bool) :
    (l.filter (fun q => pred q.1)).map Prod.fst =
      (l.map Prod.fst).filter pred := by
  induction l with
  | nil => rfl
  | cons a t ih =>
    cases hc : pred a.1 <;> simp [List.filter_cons, hc, ih]

/-! ## The claims -/

/-- Claim C8: the header sanitizer removes from the given header set exactly
the fixed hop-by-hop list plus every header named as a comma-separated token
inside the Connection header value (names canonicalized as Header.Del
canonicalizes them), and it is idempotent. -/
theorem claim_C8 :
    (∀ h : Headers,
      filterHopByHop h =
        h.filter (fun p => !((removedNames h).contains p.1))) ∧
    (∀ h : Headers, filterHopByHop (filterHopByHop h) = filterHopByHop h) :=
  ⟨filterHopByHop_eq_filter, filterHopByHop_idem⟩

/-- Claim C2: storing an entry under a key and then retrieving that key,
with no intervening write or delete, succeeds and returns an entry equal in
status code, header mapping and body bytes. -/
theorem claim_C2 (fs : Fs) (dir key : String) (e : Entry) (hw : wfEntry e) :
    ∃ e' : Entry,
      dcGet (dcSet fs dir key e) dir key = ⟨some e', true, false⟩ ∧
      e'.status = e.status ∧
      (∀ n, hVals e'.header n = hVals e.header n) ∧
      e'.body = e.body := by
  refine ⟨⟨e.status, sortHdr e.header, e.body⟩,
    dcGet_dcSet_self fs dir key e hw.2, rfl, ?_, rfl⟩
  intro n
  show (alookup (sortHdr e.header) n).getD [] = (alookup e.header n).getD []
  rw [alookup_sortHdr e.header hw.1 n]

/-- Witness for claim C2 at a concrete entry. -/
theorem claim_C2_witness :
    ∃ e' : Entry,
      dcGet (dcSet [] "c" "k"
          ⟨200, [("Content-Type", ["text/plain"])], [104, 105]⟩) "c" "k" =
        ⟨some e', true, false⟩ ∧
      e'.status = 200 ∧
      (∀ n, hVals e'.header n =
        hVals [("Content-Type", ["text/plain"])] n) ∧
      e'.body = [104, 105] :=
  claim_C2 [] "c" "k" ⟨200, [("Content-Type", ["text/plain"])], [104, 105]⟩
    ⟨by decide, by decide⟩

/-- Claim C6: Store.get returns the stored entry when a complete entry file
exists at the key's shard path, absent with no error when no file exists,
and an error (never absent) when the file exists but cannot be read or does
not deserialize to an Entry. -/
theorem claim_C6 (fs : Fs) (dir key : String) :
    (fsLookup fs (filePathForKey dir key) = none →
      dcGet fs dir key = ⟨none, false, false⟩) ∧
    (∀ (j : Json) (e : Entry),
      fsLookup fs (filePathForKey dir key) = some (.jsonFile j) →
      entryFromJson j = some e →
      dcGet fs dir key = ⟨some e, true, false⟩) ∧
    (∀ d : FsData, fsLookup fs (filePathForKey dir key) = some d →
      (match d with
       | .jsonFile j => entryFromJson j = none
       | .rawFile _ => True
       | .unreadableFile => True) →
      dcGet fs dir key = ⟨none, false, true⟩) := by
  refine ⟨fun hnone => ?_, fun j e hj he => ?_, fun d hd hbad => ?_⟩
  · rw [dcGet, hnone]
  · rw [dcGet, hj]
    show (match entryFromJson j with
      | none => (⟨none, false, true⟩ : GetRes)
      | some e' => ⟨some e', true, false⟩) = _
    rw [he]
  · rw [dcGet, hd]
    cases d with
    | jsonFile j =>
      show (match entryFromJson j with
        | none => (⟨none, false, true⟩ : GetRes)
        | some e' => ⟨some e', true, false⟩) = _
      rw [hbad]
    | rawFile s => rfl
    | unreadableFile => rfl

/-- Witness for claim C6: an absent file, a complete entry file, and a
corrupt file, each at the key's shard path. -/
theorem claim_C6_witness :
    dcGet [] "c" "abcd" = ⟨none, false, false⟩ ∧
    dcGet [("c/ab/cd/abcd.json", .jsonFile (entryToJson ⟨7, [], []⟩))]
      "c" "abcd" = ⟨some ⟨7, [], []⟩, true, false⟩ ∧
    dcGet [("c/ab/cd/abcd.json", .rawFile "not json")] "c" "abcd" =
      ⟨none, false, true⟩ :=
  ⟨(claim_C6 [] "c" "abcd").1 rfl,
   (claim_C6 [("c/ab/cd/abcd.json", .jsonFile (entryToJson ⟨7, [], []⟩))]
     "c" "abcd").2.1 (entryToJson ⟨7, [], []⟩) ⟨7, [], []⟩ rfl rfl,
   (claim_C6 [("c/ab/cd/abcd.json", .rawFile "not json")] "c" "abcd").2.2
     (.rawFile "not json") rfl trivial⟩

/-- Claim C9: Clear removes exactly the files under the cache root carrying
the storage extension and returns their count (on a store whose entry files
are those of the keys ks it removes exactly ks.length files and returns that
count); files without the extension survive; afterwards get for any cleared
key is absent. -/
theorem claim_C9 (fs : Fs) (dir : String) :
    (∀ ks : List String,
      (fs.map Prod.fst).filter (fun p => isEntryFile dir p) =
        ks.map (filePathForKey dir) →
      (dcClear fs dir).1 = ks.length) ∧
    (∀ p, fsLookup (dcClear fs dir).2 p =
      if isEntryFile dir p then none else fsLookup fs p) ∧
    (∀ key, isEntryFile dir (filePathForKey dir key) = true →
      dcGet (dcClear fs dir).2 dir key = ⟨none, false, false⟩) := by
  have hlook : ∀ p, fsLookup (dcClear fs dir).2 p =
      if isEntryFile dir p then none else fsLookup fs p := by
    intro p
    show alookup (fs.filter (fun q => !(isEntryFile dir q.1))) p = _
    rw [alookup_filter_keypred fs (fun q => !(isEntryFile dir q)) p]
    cases hc : isEntryFile dir p with
    | true => simp [hc]
    | false => simp [hc, fsLookup]
  refine ⟨fun ks hks => ?_, hlook, fun key hkey => ?_⟩
  · show (fs.filter (fun q => isEntryFile dir q.1)).length = ks.length
    have h1 : (fs.filter (fun q => isEntryFile dir q.1)).length =
        ((fs.filter (fun q => isEntryFile dir q.1)).map Prod.fst).length :=
      (List.length_map _ _).symm
    rw [h1, map_fst_filter_keypred fs (fun p => isEntryFile dir p), hks,
      List.length_map]
  · rw [dcGet, hlook (filePathForKey dir key), if_pos hkey]

/-- Witness for claim C9: a store of two entries plus an unrelated file and
a leftover temporary file; clear removes exactly the two entries. -/
theorem claim_C9_witness :
    (dcClear [("c/aa/aa/aaaa.json", .rawFile "e1"),
              ("c/readme.txt", .rawFile "keep"),
              ("c/bb/bb/bbbb.json", .rawFile "e2"),
              ("c/aa/aa/aaaa.json.tmp", .rawFile "tmp")] "c").1 = 2 ∧
    fsLookup (dcClear [("c/aa/aa/aaaa.json", .rawFile "e1"),
              ("c/readme.txt", .rawFile "keep"),
              ("c/bb/bb/bbbb.json", .rawFile "e2"),
              ("c/aa/aa/aaaa.json.tmp", .rawFile "tmp")] "c").2 "c/readme.txt" =
      some (.rawFile "keep") ∧
    dcGet (dcClear [("c/aa/aa/aaaa.json", .rawFile "e1"),
              ("c/readme.txt", .rawFile "keep"),
              ("c/bb/bb/bbbb.json", .rawFile "e2"),
              ("c/aa/aa/aaaa.json.tmp", .rawFile "tmp")] "c").2 "c" "aaaa" =
      ⟨none, false, false⟩ := by
  refine ⟨(claim_C9 _ "c").1 ["aaaa", "bbbb"] (by decide), ?_, ?_⟩
  · rw [(claim_C9 _ "c").2.1 "c/readme.txt",
      if_neg (by decide : ¬(isEntryFile "c" "c/readme.txt" = true))]
    rfl
  · exact (claim_C9 _ "c").2.2 "aaaa" (by decide)

/-- Claim C5: the derived cache key is a deterministic function of exactly
the request method, the resolved origin URL, and the Accept header value:
requests agreeing on those three (in particular, requests differing only in
other headers, in the body, or in any attribute outside those three) get
equal keys. -/
theorem claim_C5 (base : UrlT) (r1 r2 : Request) :
    ((r1.method = r2.method →
      urlString { base with path := singleJoiningSlash base.path r1.path,
                            rawQuery := r1.rawQuery } =
        urlString { base with path := singleJoiningSlash base.path r2.path,
                              rawQuery := r2.rawQuery } →
      hGet r1.header "Accept" = hGet r2.header "Accept" →
      buildCacheKey base r1 = buildCacheKey base r2) ∧
     (r1.method = r2.method → r1.path = r2.path → r1.rawQuery = r2.rawQuery →
      hGet r1.header "Accept" = hGet r2.header "Accept" →
      buildCacheKey base r1 = buildCacheKey base r2)) := by
  constructor
  · intro hm hu ha
    rw [buildCacheKey, buildCacheKey, hm, hu, ha]
  · intro hm hp hq ha
    rw [buildCacheKey, buildCacheKey, hm, hp, hq, ha]

/-- Witness for claim C5: requests differing only in a non-Accept header and
in the body produce the same key. -/
theorem claim_C5_witness :
    buildCacheKey ⟨"http", "h", "", ""⟩
      ⟨"GET", "/items", "a=1",
       [("Accept", ["application/json"]), ("X-Trace", ["1"])], [1]⟩ =
    buildCacheKey ⟨"http", "h", "", ""⟩
      ⟨"GET", "/items", "a=1",
       [("Accept", ["application/json"]), ("Cookie", ["s=9"])], [2, 3]⟩ :=
  (claim_C5 ⟨"http", "h", "", ""⟩ _ _).2 rfl rfl rfl rfl

theorem hVals_filter_hSet_xcache (h : Headers) (v : String)
    (hconn : hGet h "Connection" = "") :
    hVals (filterHopByHop (hSet h "X-Cache" v)) "X-Cache" = [v] := by
  have hc : hGet (hSet h "X-Cache" v) "Connection" = hGet h "Connection" :=
    hGet_hSet_ne h "X-Cache" v "Connection" (by decide)
  have hnom : connNominated (hSet h "X-Cache" v) = [] := by
    rw [connNominated, hc, hconn]
    rfl
  rw [hVals_filterHopByHop, removedNames, hnom]
  simp only [List.map_nil, List.nil_append]
  rw [if_neg (by decide :
    ¬(((hopHeaders.map canonKey).contains "X-Cache") = true))]
  have hself := hVals_hSet_self h "X-Cache" v
  rw [canonKey_idem_xcache] at hself
  exact hself

theorem connNominated_of_hGet_empty (h : Headers)
    (hconn : hGet h "Connection" = "") : connNominated h = [] := by
  rw [connNominated, hconn]
  rfl

theorem hVals_filterHopByHop_noconn (h : Headers) (n : String)
    (hconn : hGet h "Connection" = "")
    (hn : ((hopHeaders.map canonKey).contains n) = false) :
    hVals (filterHopByHop h) n = hVals h n := by
  rw [hVals_filterHopByHop, removedNames, connNominated_of_hGet_empty h hconn]
  simp only [List.map_nil, List.nil_append, hn]
  rw [if_neg Bool.false_ne_true]

theorem hGet_of_hVals_nil (h : Headers) (k : String)
    (hv : hVals h (canonKey k) = []) : hGet h k = "" := by
  rw [hGet_eq_headD, hv]
  rfl

/-- Counterexample to claim C4 as stated: a GET request that carries an
Authorization header (with an empty value) is nevertheless cache-eligible,
because the code tests Header.Get, which cannot distinguish an empty value
from an absent header. -/
theorem claim_C4_counterexample :
    cacheEligibleB ⟨"GET", "/a", "", [("Authorization", [""])], []⟩ = true ∧
    carriesHeader ⟨"GET", "/a", "", [("Authorization", [""])], []⟩
      "Authorization" = true := by
  constructor <;> decide

/-- Claim C4 (amended): a request is cache-eligible iff its method is
exactly GET, its first Authorization value is empty or the header is absent
(Header.Get semantics), and its Cache-Control value does not contain the
no-store token under case-insensitive comma-separated matching; every
ineligible request goes through the base proxy with no cache read, no cache
write, an unchanged store, and one origin round trip. -/
theorem claim_C4 (r : Request) :
    (cacheEligibleB r = true ↔
      (r.method = "GET" ∧ hGet r.header "Authorization" = "" ∧
        containsToken (hGet r.header "Cache-Control") "no-store" = false)) ∧
    (∀ (originBase dir : String) (fs : Fs)
      (origin : Request → Option Response),
      cacheEligibleB r = false →
      (handle originBase true dir fs origin r).fs = fs ∧
      (handle originBase true dir fs origin r).cacheGets = 0 ∧
      (handle originBase true dir fs origin r).cacheSets = 0 ∧
      (handle originBase true dir fs origin r).originCalls = 1) := by
  constructor
  · rw [cacheEligibleB, reqNoStore]
    cases hm : r.method == "GET" <;>
      cases ha : hGet r.header "Authorization" == "" <;>
      cases hn : containsToken (hGet r.header "Cache-Control") "no-store" <;>
      simp_all
  · intro originBase dir fs origin hin
    rw [handle_ineligible originBase true dir fs origin r hin]
    rw [baseForward]
    cases origin (dirRequest r) <;> exact ⟨rfl, rfl, rfl, rfl⟩

/-- Witness for claim C4: a POST request is ineligible and is forwarded
without touching the cache; a plain GET request is eligible. -/
theorem claim_C4_witness :
    ((handle "http://h" true "c" [("c/x.json", .rawFile "d")]
        (fun _ => some ⟨200, [], []⟩) ⟨"POST", "/a", "", [], []⟩).fs =
      [("c/x.json", .rawFile "d")] ∧
     (handle "http://h" true "c" [("c/x.json", .rawFile "d")]
        (fun _ => some ⟨200, [], []⟩) ⟨"POST", "/a", "", [], []⟩).cacheGets = 0 ∧
     (handle "http://h" true "c" [("c/x.json", .rawFile "d")]
        (fun _ => some ⟨200, [], []⟩) ⟨"POST", "/a", "", [], []⟩).cacheSets = 0 ∧
     (handle "http://h" true "c" [("c/x.json", .rawFile "d")]
        (fun _ => some ⟨200, [], []⟩) ⟨"POST", "/a", "", [], []⟩).originCalls
        = 1) ∧
    cacheEligibleB ⟨"GET", "/a", "", [], []⟩ = true :=
  ⟨(claim_C4 ⟨"POST", "/a", "", [], []⟩).2 "http://h" "c"
      [("c/x.json", .rawFile "d")] (fun _ => some ⟨200, [], []⟩) rfl,
   (claim_C4 ⟨"GET", "/a", "", [], []⟩).1.mpr ⟨rfl, rfl, rfl⟩⟩

/-- Counterexample to claim C3 as stated: a GET request carrying an
Authorization credential is proxied with the cache configured, yet its
response carries no X-Cache header at all. -/
theorem claim_C3_counterexample :
    (⟨"GET", "/a", "", [("Authorization", ["Bearer x"])], []⟩ :
      Request).method = "GET" ∧
    hVals (handle "http://h" true "c" []
      (fun _ => some ⟨200, [("Content-Type", ["text/plain"])], [111]⟩)
      ⟨"GET", "/a", "", [("Authorization", ["Bearer x"])], []⟩).resp.header
      "X-Cache" = [] := by
  constructor
  · rfl
  · decide

/-- Claim C3 (amended): with the cache configured and a parseable origin
base, a cache-eligible request is answered with X-Cache HIT when a stored
entry (carrying no Connection header, as entries written by the system do)
is found, and with X-Cache MISS when the lookup misses and the origin
responds; when the origin fetch fails the client receives the fixed bad
gateway response, which carries no X-Cache; for every ineligible request
the proxy adds no X-Cache header: the response header set is exactly the
sanitized origin header set (or the bad gateway header set). -/
theorem claim_C3 (originBase : String) (base : UrlT) (dir : String) (fs : Fs)
    (origin : Request → Option Response) (r : Request)
    (hparse : parseURL originBase = some base) :
    (∀ ent : Entry, cacheEligibleB r = true →
      (dcGet fs dir (buildCacheKey base r)).entry = some ent →
      hGet (copyHeaders [] ent.header) "Connection" = "" →
      hVals (handle originBase true dir fs origin r).resp.header "X-Cache" =
        ["HIT"]) ∧
    (∀ res : Response, cacheEligibleB r = true →
      (dcGet fs dir (buildCacheKey base r)).entry = none →
      origin (dirRequest r) = some res →
      hVals (handle originBase true dir fs origin r).resp.header "X-Cache" =
        ["MISS"]) ∧
    (cacheEligibleB r = true →
      (dcGet fs dir (buildCacheKey base r)).entry = none →
      origin (dirRequest r) = none →
      handle originBase true dir fs origin r = ⟨badGatewayResp, fs, 1, 0, 1⟩) ∧
    (cacheEligibleB r = false →
      (handle originBase true dir fs origin r).resp.header =
        (match origin (dirRequest r) with
         | none => badGatewayResp.header
         | some res => filterHopByHop res.header)) := by
  refine ⟨fun ent helig hent hconn => ?_, fun res helig hent horigin => ?_,
    fun helig hent horigin => ?_, fun hin => ?_⟩
  · simp only [handle_hit originBase base dir fs origin r ent hparse helig
      hent]
    exact hVals_filter_hSet_xcache (copyHeaders [] ent.header) "HIT" hconn
  · cases hns : containsToken
        (hGet (hSet (filterHopByHop res.header) "X-Cache" "MISS")
          "Cache-Control") "no-store" with
    | true =>
      simp only [handle_miss_nostore originBase base dir fs origin r res
        hparse helig hent horigin hns]
      have hself := hVals_hSet_self (filterHopByHop res.header) "X-Cache"
        "MISS"
      rw [canonKey_idem_xcache] at hself
      exact hself
    | false =>
      simp only [handle_miss_store originBase base dir fs origin r res hparse
        helig hent horigin hns]
      have hne : hVals (hSet (hSet (filterHopByHop res.header) "X-Cache"
          "MISS") "Content-Length" (toString res.body.length)) "X-Cache" =
          hVals (hSet (filterHopByHop res.header) "X-Cache" "MISS")
            "X-Cache" :=
        hVals_hSet_ne _ "Content-Length" _ "X-Cache"
          (by rw [canonKey_idem_clen]; decide)
      have hself := hVals_hSet_self (filterHopByHop res.header) "X-Cache"
        "MISS"
      rw [canonKey_idem_xcache] at hself
      exact hne.trans hself
  · exact handle_miss_fail originBase base dir fs origin r hparse helig hent
      horigin
  · simp only [handle_ineligible originBase true dir fs origin r hin,
      baseForward]
    cases origin (dirRequest r) <;> rfl

/-- Witness for claim C3: an eligible request missing an empty store with a
responsive origin is tagged MISS. -/
theorem claim_C3_witness :
    hVals (handle "http://h" true "c" []
      (fun _ => some ⟨200, [("Content-Type", ["text/plain"])], [111]⟩)
      ⟨"GET", "/items", "", [], []⟩).resp.header "X-Cache" = ["MISS"] :=
  (claim_C3 "http://h" ⟨"http", "h", "", ""⟩ "c" []
    (fun _ => some ⟨200, [("Content-Type", ["text/plain"])], [111]⟩)
    ⟨"GET", "/items", "", [], []⟩ rfl).2.1
    ⟨200, [("Content-Type", ["text/plain"])], [111]⟩ rfl rfl rfl

/-- Counterexample to claim C7 as stated: with a corrupt (unparseable) file
already sitting at the derived key's shard path, an eligible request whose
origin response declares no-store is tagged MISS and persists nothing, yet
Store.get for the derived key afterwards returns an error, not absent. -/
theorem claim_C7_counterexample :
    hVals (handle "http://h" true "c"
        [(filePathForKey "c" (buildCacheKey ⟨"http", "h", "", ""⟩
            ⟨"GET", "/a", "", [], []⟩), .rawFile "corrupt")]
        (fun _ => some ⟨200, [("Cache-Control", ["no-store"])], [1]⟩)
        ⟨"GET", "/a", "", [], []⟩).resp.header "X-Cache" = ["MISS"] ∧
    (handle "http://h" true "c"
        [(filePathForKey "c" (buildCacheKey ⟨"http", "h", "", ""⟩
            ⟨"GET", "/a", "", [], []⟩), .rawFile "corrupt")]
        (fun _ => some ⟨200, [("Cache-Control", ["no-store"])], [1]⟩)
        ⟨"GET", "/a", "", [], []⟩).cacheSets = 0 ∧
    dcGet (handle "http://h" true "c"
        [(filePathForKey "c" (buildCacheKey ⟨"http", "h", "", ""⟩
            ⟨"GET", "/a", "", [], []⟩), .rawFile "corrupt")]
        (fun _ => some ⟨200, [("Cache-Control", ["no-store"])], [1]⟩)
        ⟨"GET", "/a", "", [], []⟩).fs "c"
      (buildCacheKey ⟨"http", "h", "", ""⟩ ⟨"GET", "/a", "", [], []⟩) =
      ⟨none, false, true⟩ := by
  have hlook : fsLookup
      [(filePathForKey "c" (buildCacheKey ⟨"http", "h", "", ""⟩
          ⟨"GET", "/a", "", [], []⟩), FsData.rawFile "corrupt")]
      (filePathForKey "c" (buildCacheKey ⟨"http", "h", "", ""⟩
          ⟨"GET", "/a", "", [], []⟩)) = some (.rawFile "corrupt") := by
    rw [fsLookup, alookup_cons]
    simp
  have hget : dcGet
      [(filePathForKey "c" (buildCacheKey ⟨"http", "h", "", ""⟩
          ⟨"GET", "/a", "", [], []⟩), FsData.rawFile "corrupt")]
      "c" (buildCacheKey ⟨"http", "h", "", ""⟩ ⟨"GET", "/a", "", [], []⟩) =
      ⟨none, false, true⟩ := by
    rw [dcGet, hlook]
  have hent : (dcGet
      [(filePathForKey "c" (buildCacheKey ⟨"http", "h", "", ""⟩
          ⟨"GET", "/a", "", [], []⟩), FsData.rawFile "corrupt")]
      "c" (buildCacheKey ⟨"http", "h", "", ""⟩
        ⟨"GET", "/a", "", [], []⟩)).entry = none := by
    rw [hget]
  have hmain := handle_miss_nostore "http://h" ⟨"http", "h", "", ""⟩ "c"
    [(filePathForKey "c" (buildCacheKey ⟨"http", "h", "", ""⟩
        ⟨"GET", "/a", "", [], []⟩), FsData.rawFile "corrupt")]
    (fun _ => some ⟨200, [("Cache-Control", ["no-store"])], [1]⟩)
    ⟨"GET", "/a", "", [], []⟩ ⟨200, [("Cache-Control", ["no-store"])], [1]⟩
    rfl rfl hent rfl (by decide)
  refine ⟨?_, ?_, ?_⟩
  · simp only [hmain]
    decide
  · simp only [hmain]
  · simp only [hmain]
    exact hget

/-- Claim C7 (amended): for a cache-eligible request (parseable origin base)
whose derived key has no file at its shard path, and whose origin response
after hop-by-hop sanitization carries a Cache-Control no-store token (the
code tests the already-sanitized header), the response is tagged X-Cache
MISS, nothing is persisted (the file system is unchanged and no Set occurs),
Store.get for the derived key returns absent, and an identical subsequent
request is again tagged MISS. -/
theorem claim_C7 (originBase : String) (base : UrlT) (dir : String) (fs : Fs)
    (origin : Request → Option Response) (r : Request) (res : Response)
    (hparse : parseURL originBase = some base)
    (helig : cacheEligibleB r = true)
    (hnofile : fsLookup fs (filePathForKey dir (buildCacheKey base r)) = none)
    (horigin : origin (dirRequest r) = some res)
    (hns : containsToken
      (hGet (hSet (filterHopByHop res.header) "X-Cache" "MISS")
        "Cache-Control") "no-store" = true) :
    hVals (handle originBase true dir fs origin r).resp.header "X-Cache" =
      ["MISS"] ∧
    (handle originBase true dir fs origin r).fs = fs ∧
    (handle originBase true dir fs origin r).cacheSets = 0 ∧
    dcGet fs dir (buildCacheKey base r) = ⟨none, false, false⟩ ∧
    hVals (handle originBase true dir
        (handle originBase true dir fs origin r).fs origin r).resp.header
      "X-Cache" = ["MISS"] := by
  have habsent : dcGet fs dir (buildCacheKey base r) = ⟨none, false, false⟩ := by
    rw [dcGet, hnofile]
  have hent : (dcGet fs dir (buildCacheKey base r)).entry = none := by
    rw [habsent]
  have hmain := handle_miss_nostore originBase base dir fs origin r res hparse
    helig hent horigin hns
  have hmiss : hVals (handle originBase true dir fs origin r).resp.header
      "X-Cache" = ["MISS"] := by
    simp only [hmain]
    have hself := hVals_hSet_self (filterHopByHop res.header) "X-Cache" "MISS"
    rw [canonKey_idem_xcache] at hself
    exact hself
  have hfs : (handle originBase true dir fs origin r).fs = fs := by
    simp only [hmain]
  refine ⟨hmiss, hfs, by simp only [hmain], habsent, ?_⟩
  rw [hfs]
  exact hmiss

/-- Witness for claim C7: an eligible request against an empty store whose
origin answers with Cache-Control no-store. -/
theorem claim_C7_witness :
    hVals (handle "http://h" true "c" []
        (fun _ => some ⟨200, [("Cache-Control", ["private, no-store"])], [1]⟩)
        ⟨"GET", "/b", "", [], []⟩).resp.header "X-Cache" = ["MISS"] ∧
    (handle "http://h" true "c" []
        (fun _ => some ⟨200, [("Cache-Control", ["private, no-store"])], [1]⟩)
        ⟨"GET", "/b", "", [], []⟩).fs = [] ∧
    (handle "http://h" true "c" []
        (fun _ => some ⟨200, [("Cache-Control", ["private, no-store"])], [1]⟩)
        ⟨"GET", "/b", "", [], []⟩).cacheSets = 0 ∧
    dcGet [] "c" (buildCacheKey ⟨"http", "h", "", ""⟩
      ⟨"GET", "/b", "", [], []⟩) = ⟨none, false, false⟩ ∧
    hVals (handle "http://h" true "c"
        (handle "http://h" true "c" []
          (fun _ => some ⟨200, [("Cache-Control", ["private, no-store"])], [1]⟩)
          ⟨"GET", "/b", "", [], []⟩).fs
        (fun _ => some ⟨200, [("Cache-Control", ["private, no-store"])], [1]⟩)
        ⟨"GET", "/b", "", [], []⟩).resp.header "X-Cache" = ["MISS"] :=
  claim_C7 "http://h" ⟨"http", "h", "", ""⟩ "c" []
    (fun _ => some ⟨200, [("Cache-Control", ["private, no-store"])], [1]⟩)
    ⟨"GET", "/b", "", [], []⟩ ⟨200, [("Cache-Control", ["private, no-store"])], [1]⟩
    rfl rfl rfl rfl (by decide)

/-- Claim C10: for the entry persisted on a cache miss (headers captured by
CloneHeaders after X-Cache MISS and Content-Length are set), every header
name's value list is stored in sorted order and the stored header set
includes X-Cache MISS; a subsequent identical request is served from the
store with zero origin calls, and any multi-valued origin header is served
in sorted order rather than origin order. -/
theorem claim_C10 (originBase : String) (base : UrlT) (dir : String) (fs : Fs)
    (origin : Request → Option Response) (r : Request) (res : Response)
    (hparse : parseURL originBase = some base)
    (helig : cacheEligibleB r = true)
    (hent : (dcGet fs dir (buildCacheKey base r)).entry = none)
    (horigin : origin (dirRequest r) = some res)
    (hns : containsToken
      (hGet (hSet (filterHopByHop res.header) "X-Cache" "MISS")
        "Cache-Control") "no-store" = false)
    (hcanon : ∀ p ∈ res.header, canonKey p.1 = p.1)
    (hnd : (res.header.map Prod.fst).Nodup)
    (hbody : ∀ b ∈ res.body, b < 256)
    (hconn : hGet res.header "Connection" = "") :
    ((handle originBase true dir fs origin r).fs =
      dcSet fs dir (buildCacheKey base r)
        ⟨res.status,
         cloneHeaders (hSet (hSet (filterHopByHop res.header) "X-Cache"
           "MISS") "Content-Length" (toString res.body.length)), res.body⟩) ∧
    (∀ n, (hVals (cloneHeaders (hSet (hSet (filterHopByHop res.header)
        "X-Cache" "MISS") "Content-Length"
        (toString res.body.length))) n).Sorted (· ≤ ·)) ∧
    (hVals (cloneHeaders (hSet (hSet (filterHopByHop res.header) "X-Cache"
        "MISS") "Content-Length" (toString res.body.length))) "X-Cache" =
      ["MISS"]) ∧
    ((handle originBase true dir (handle originBase true dir fs origin r).fs
        origin r).originCalls = 0) ∧
    ((handle originBase true dir (handle originBase true dir fs origin r).fs
        origin r).resp.header =
      filterHopByHop (hSet (copyHeaders [] (sortHdr (cloneHeaders (hSet (hSet
        (filterHopByHop res.header) "X-Cache" "MISS") "Content-Length"
        (toString res.body.length))))) "X-Cache" "HIT")) ∧
    (∀ n, canonKey n = n → ((hopHeaders.map canonKey).contains n) = false →
      n ≠ "X-Cache" → n ≠ "Content-Length" →
      hVals (filterHopByHop (hSet (copyHeaders [] (sortHdr (cloneHeaders
          (hSet (hSet (filterHopByHop res.header) "X-Cache" "MISS")
            "Content-Length" (toString res.body.length))))) "X-Cache" "HIT"))
        n = sortStrings (hVals res.header n)) := by
  have hmain := handle_miss_store originBase base dir fs origin r res hparse
    helig hent horigin hns
  have hfs : (handle originBase true dir fs origin r).fs =
      dcSet fs dir (buildCacheKey base r)
        ⟨res.status,
         cloneHeaders (hSet (hSet (filterHopByHop res.header) "X-Cache"
           "MISS") "Content-Length" (toString res.body.length)), res.body⟩ := by
    simp only [hmain]
  have nd1 : ((filterHopByHop res.header).map Prod.fst).Nodup := by
    rw [filterHopByHop_eq_filter]
    exact keys_filter_nodup _ _ hnd
  have nd2 := keys_hSet_nodup (filterHopByHop res.header) "X-Cache" "MISS" nd1
  have nd3 := keys_hSet_nodup _ "Content-Length"
    (toString res.body.length) nd2
  have nd4 : ((cloneHeaders (hSet (hSet (filterHopByHop res.header) "X-Cache"
      "MISS") "Content-Length" (toString res.body.length))).map
      Prod.fst).Nodup := by
    rw [keys_cloneHeaders]
    exact nd3
  have hcanon2 : ∀ p ∈ hSet (hSet (filterHopByHop res.header) "X-Cache"
      "MISS") "Content-Length" (toString res.body.length),
      canonKey p.1 = p.1 := by
    intro p hp
    rcases mem_hSet hp with hp1 | hk
    · rcases mem_hSet hp1 with hp0 | hk
      · exact hcanon p (mem_filterHopByHop hp0).1
      · rw [hk]
        decide
    · rw [hk]
      decide
  have hsorted : ∀ n, (hVals (cloneHeaders (hSet (hSet
      (filterHopByHop res.header) "X-Cache" "MISS") "Content-Length"
      (toString res.body.length))) n).Sorted (· ≤ ·) := by
    intro n
    rw [hVals_cloneHeaders]
    exact sortStrings_sorted _
  have hxc : hVals (cloneHeaders (hSet (hSet (filterHopByHop res.header)
      "X-Cache" "MISS") "Content-Length" (toString res.body.length)))
      "X-Cache" = ["MISS"] := by
    rw [hVals_cloneHeaders]
    have e1 := hVals_hSet_ne (hSet (filterHopByHop res.header) "X-Cache"
      "MISS") "Content-Length" (toString res.body.length) "X-Cache"
      (by rw [canonKey_idem_clen]; decide)
    have e2 := hVals_hSet_self (filterHopByHop res.header) "X-Cache" "MISS"
    rw [canonKey_idem_xcache] at e2
    rw [e1, e2]
    rfl
  have hget2 := dcGet_dcSet_self fs dir (buildCacheKey base r)
    ⟨res.status,
     cloneHeaders (hSet (hSet (filterHopByHop res.header) "X-Cache" "MISS")
       "Content-Length" (toString res.body.length)), res.body⟩ hbody
  have hent2 : (dcGet (dcSet fs dir (buildCacheKey base r)
      ⟨res.status,
       cloneHeaders (hSet (hSet (filterHopByHop res.header) "X-Cache" "MISS")
         "Content-Length" (toString res.body.length)), res.body⟩) dir
      (buildCacheKey base r)).entry =
      some ⟨res.status,
        sortHdr (cloneHeaders (hSet (hSet (filterHopByHop res.header)
          "X-Cache" "MISS") "Content-Length" (toString res.body.length))),
        res.body⟩ := by
    rw [hget2]
  have hhit := handle_hit originBase base dir
    (dcSet fs dir (buildCacheKey base r)
      ⟨res.status,
       cloneHeaders (hSet (hSet (filterHopByHop res.header) "X-Cache" "MISS")
         "Content-Length" (toString res.body.length)), res.body⟩) origin r
    ⟨res.status,
     sortHdr (cloneHeaders (hSet (hSet (filterHopByHop res.header) "X-Cache"
       "MISS") "Content-Length" (toString res.body.length))), res.body⟩
    hparse helig hent2
  have hoc : (handle originBase true dir
      (handle originBase true dir fs origin r).fs origin r).originCalls
      = 0 := by
    rw [hfs]
    simp only [hhit]
  have hVsort : ∀ m, hVals (sortHdr (cloneHeaders (hSet (hSet
      (filterHopByHop res.header) "X-Cache" "MISS") "Content-Length"
      (toString res.body.length)))) m =
      hVals (cloneHeaders (hSet (hSet (filterHopByHop res.header) "X-Cache"
        "MISS") "Content-Length" (toString res.body.length))) m := by
    intro m
    rw [hVals_eq_alookup, hVals_eq_alookup, alookup_sortHdr _ nd4 m]
  have hcanonE : ∀ p ∈ sortHdr (cloneHeaders (hSet (hSet
      (filterHopByHop res.header) "X-Cache" "MISS") "Content-Length"
      (toString res.body.length))), canonKey p.1 = p.1 := by
    intro p hp
    obtain ⟨q, hq, hpq⟩ := mem_cloneHeaders (mem_sortHdr hp)
    rw [hpq]
    exact hcanon2 q hq
  have ndE := keys_sortHdr_nodup _ nd4
  have hcopy := hVals_copyHeaders_nil _ hcanonE ndE
  have hconn_f : hVals (filterHopByHop res.header) "Connection" = [] := by
    have hct : ((removedNames res.header).contains "Connection") = true :=
      List.elem_eq_true_of_mem (connection_mem_removedNames res.header)
    rw [hVals_filterHopByHop, if_pos hct]
  have hconn1 : hVals (hSet (filterHopByHop res.header) "X-Cache" "MISS")
      "Connection" = [] := by
    rw [hVals_hSet_ne _ "X-Cache" _ "Connection"
      (by rw [canonKey_idem_xcache]; decide)]
    exact hconn_f
  have hconn2 : hVals (hSet (hSet (filterHopByHop res.header) "X-Cache"
      "MISS") "Content-Length" (toString res.body.length)) "Connection"
      = [] := by
    rw [hVals_hSet_ne _ "Content-Length" _ "Connection"
      (by rw [canonKey_idem_clen]; decide)]
    exact hconn1
  have hconnE : hVals (sortHdr (cloneHeaders (hSet (hSet
      (filterHopByHop res.header) "X-Cache" "MISS") "Content-Length"
      (toString res.body.length)))) "Connection" = [] := by
    rw [hVsort, hVals_cloneHeaders, hconn2]
    rfl
  have hconnCopy : hGet (copyHeaders [] (sortHdr (cloneHeaders (hSet (hSet
      (filterHopByHop res.header) "X-Cache" "MISS") "Content-Length"
      (toString res.body.length))))) "Connection" = "" := by
    apply hGet_of_hVals_nil
    rw [canonKey_idem_conn, hcopy, hconnE]
  refine ⟨hfs, hsorted, hxc, hoc, ?_, ?_⟩
  · simp only [hfs, hhit]
  · intro n hcn hhop hnx hncl
    have hc3 : hGet (hSet (copyHeaders [] (sortHdr (cloneHeaders (hSet (hSet
        (filterHopByHop res.header) "X-Cache" "MISS") "Content-Length"
        (toString res.body.length))))) "X-Cache" "HIT") "Connection" = "" := by
      rw [hGet_hSet_ne _ _ _ _
        (by rw [canonKey_idem_conn, canonKey_idem_xcache]; decide)]
      exact hconnCopy
    rw [hVals_filterHopByHop_noconn _ n hc3 hhop]
    rw [hVals_hSet_ne _ "X-Cache" _ n
      (by rw [canonKey_idem_xcache]; exact hnx)]
    rw [hcopy n, hVsort n, hVals_cloneHeaders]
    refine congrArg sortStrings ?_
    rw [hVals_hSet_ne _ "Content-Length" _ n
      (by rw [canonKey_idem_clen]; exact hncl)]
    rw [hVals_hSet_ne _ "X-Cache" _ n
      (by rw [canonKey_idem_xcache]; exact hnx)]
    exact hVals_filterHopByHop_noconn res.header n hconn hhop

/-- Witness for claim C10: an origin response with an unsorted multi-valued
Set-Cookie header is stored sorted with X-Cache MISS and served sorted on
the following hit without contacting the origin. -/
theorem claim_C10_witness :
    (∀ n, (hVals
      (cloneHeaders (hSet (hSet (filterHopByHop
        [("Set-Cookie", ["b=2", "a=1"])]) "X-Cache" "MISS")
        "Content-Length" (toString ([49] : List Nat).length)))
      n).Sorted (· ≤ ·)) ∧
    hVals
      (cloneHeaders (hSet (hSet (filterHopByHop
        [("Set-Cookie", ["b=2", "a=1"])]) "X-Cache" "MISS")
        "Content-Length" (toString ([49] : List Nat).length)))
      "X-Cache" = ["MISS"] ∧
    (handle "http://h" true "c"
      (handle "http://h" true "c" []
        (fun _ => some ⟨200, [("Set-Cookie", ["b=2", "a=1"])], [49]⟩)
        ⟨"GET", "/s", "", [], []⟩).fs
      (fun _ => some ⟨200, [("Set-Cookie", ["b=2", "a=1"])], [49]⟩)
      ⟨"GET", "/s", "", [], []⟩).originCalls = 0 ∧
    hVals (handle "http://h" true "c"
      (handle "http://h" true "c" []
        (fun _ => some ⟨200, [("Set-Cookie", ["b=2", "a=1"])], [49]⟩)
        ⟨"GET", "/s", "", [], []⟩).fs
      (fun _ => some ⟨200, [("Set-Cookie", ["b=2", "a=1"])], [49]⟩)
      ⟨"GET", "/s", "", [], []⟩).resp.header "Set-Cookie" =
      sortStrings ["b=2", "a=1"] := by
  have h := claim_C10 "http://h" ⟨"http", "h", "", ""⟩ "c" []
    (fun _ => some ⟨200, [("Set-Cookie", ["b=2", "a=1"])], [49]⟩)
    ⟨"GET", "/s", "", [], []⟩ ⟨200, [("Set-Cookie", ["b=2", "a=1"])], [49]⟩
    rfl rfl rfl rfl (by decide) (by decide) (by decide) (by decide)
    (by decide)
  refine ⟨h.2.1, h.2.2.1, h.2.2.2.1, ?_⟩
  have h5a := h.2.2.2.2.1
  have h5b := h.2.2.2.2.2 "Set-Cookie" (by decide) (by decide) (by decide)
    (by decide)
  exact (congrArg (fun hh => hVals hh "Set-Cookie") h5a).trans h5b

/-- Claim C1: under arbitrary interleavings of concurrent Set calls for the
same key — each call acquiring the per-key lock, serializing the entry,
writing it to a temporary file in the same directory as the final shard
path, atomically renaming the temporary file over the final path, and
releasing the lock — once every call for a key has completed, the key's
file holds the complete serialized entry of exactly one of those calls
(never a mixture); and an acquire can only ever be blocked by a call for
the same key, so calls for different keys never block each other. -/
theorem claim_C1 (dir : String) (ts : List SetThread) (files0 : Fs)
    (K : String) (hinj : PathInj dir ts)
    (hex : ∃ (i : Nat) (th : SetThread), ts[i]? = some th ∧ th.key = K) :
    (∀ tr : List Nat,
      (∀ (i : Nat) (th : SetThread), ts[i]? = some th → th.key = K →
        (crun dir ts (cinit ts files0) tr).pcs[i]? = some 4) →
      ∃ (i : Nat) (th : SetThread), ts[i]? = some th ∧ th.key = K ∧
        alookup (crun dir ts (cinit ts files0) tr).files
          (filePathForKey dir K) = some (.jsonFile (entryToJson th.entry))) ∧
    (∀ (tr : List Nat) (t : Nat),
      blockedIn ts (crun dir ts (cinit ts files0) tr) t →
      ∃ (th th' : SetThread) (j : Nat), ts[t]? = some th ∧ j ≠ t ∧
        ts[j]? = some th' ∧ th'.key = th.key) ∧
    (∀ th : SetThread,
      dirnameOf (tmpPathOf dir th) = dirnameOf (fpathOf dir th)) := by
  refine ⟨?_, ?_, fun th => dirnameOf_tmpPath dir th⟩
  · intro tr hdone
    have hinv := cinv_run dir ts hinj tr (cinit ts files0)
      (cinv_init dir ts files0)
    obtain ⟨i, th, hti, hkey⟩ := hex
    have hant : ∃ (j : Nat) (th2 : SetThread), ts[j]? = some th2 ∧
        th2.key = K ∧ ∃ p, (crun dir ts (cinit ts files0) tr).pcs[j]? =
          some p ∧ 3 ≤ p :=
      ⟨i, th, hti, hkey, 4, hdone i th hti hkey, by omega⟩
    obtain ⟨th2, ⟨j, htj, hkey2⟩, hfile⟩ := hinv.fileOk K hant
    exact ⟨j, th2, htj, hkey2, hfile⟩
  · intro tr t hb
    have hinv := cinv_run dir ts hinj tr (cinit ts files0)
      (cinv_init dir ts files0)
    obtain ⟨th, j, th', hth, hjt, hth', hkey', _⟩ :=
      blocked_same_key dir ts _ hinv t hb
    exact ⟨th, th', j, hth, hjt, hth', hkey'⟩

/-- Witness for claim C1: two Set calls for one key and one for another,
fully interleaved to completion thread by thread; the key's file ends with
one of the two same-key payloads. -/
theorem claim_C1_witness :
    ∃ (i : Nat) (th : SetThread),
      ([⟨"k1", ⟨200, [], [1]⟩⟩, ⟨"k1", ⟨201, [], [2]⟩⟩,
        ⟨"k2", ⟨202, [], [3]⟩⟩] : List SetThread)[i]? = some th ∧
      th.key = "k1" ∧
      alookup (crun "d"
          [⟨"k1", ⟨200, [], [1]⟩⟩, ⟨"k1", ⟨201, [], [2]⟩⟩,
           ⟨"k2", ⟨202, [], [3]⟩⟩]
          (cinit [⟨"k1", ⟨200, [], [1]⟩⟩, ⟨"k1", ⟨201, [], [2]⟩⟩,
            ⟨"k2", ⟨202, [], [3]⟩⟩] [])
          [0, 0, 0, 0, 1, 1, 1, 1, 2, 2, 2, 2]).files
        (filePathForKey "d" "k1") =
        some (.jsonFile (entryToJson th.entry)) := by
  have h := (claim_C1 "d"
    [⟨"k1", ⟨200, [], [1]⟩⟩, ⟨"k1", ⟨201, [], [2]⟩⟩, ⟨"k2", ⟨202, [], [3]⟩⟩]
    [] "k1" (by unfold PathInj; decide)
    ⟨0, ⟨"k1", ⟨200, [], [1]⟩⟩, rfl, rfl⟩).1
    [0, 0, 0, 0, 1, 1, 1, 1, 2, 2, 2, 2] ?_
  · exact h
  · intro i th hi hk
    match i, hi with
    | 0, hi => decide
    | 1, hi => decide
    | 2, hi =>
      rw [show ([⟨"k1", ⟨200, [], [1]⟩⟩, ⟨"k1", ⟨201, [], [2]⟩⟩,
        ⟨"k2", ⟨202, [], [3]⟩⟩] : List SetThread)[2]? =
          some ⟨"k2", ⟨202, [], [3]⟩⟩ from rfl] at hi
      rw [(Option.some_inj.mp hi).symm] at hk
      exact absurd hk (by decide)
    | (n + 3), hi =>
      rw [show ([⟨"k1", ⟨200, [], [1]⟩⟩, ⟨"k1", ⟨201, [], [2]⟩⟩,
        ⟨"k2", ⟨202, [], [3]⟩⟩] : List SetThread)[n + 3]? = none from by
          simp] at hi
      exact Option.noConfusion hi

end CachingProxy
